import Mathlib

/-
  Verification of the go-phore-connmgr connection manager (src/connmgr.go).

  Shallow embedding notes:
  - peer.ID is a Go string, i.e. a byte sequence; we model it as a list of bytes.
  - Go maps are modelled as association lists.  The list order stands for the
    (arbitrary) Go map iteration order, so universally quantified theorems over
    all association lists cover every possible iteration order, and a concrete
    list exhibits one possible iteration order.
  - The 256 shard maps (the segments array) are modelled as one association
    list: the concatenation of the per-shard maps in shard order.  Every
    per-peer operation touches only the entry of that peer, and the trim scan
    walks shards in index order, so the flat list faithfully represents the
    scan order (shard-major, arbitrary within a shard).
  - Shard selection indexes the last byte of the peer identifier; on the empty
    identifier the Go code panics (index out of range), which we model with
    Option: every operation that begins with a shard lookup returns none for
    the empty identifier.
  - time.Time and time.Duration are modelled as Int (nanoseconds); t.Add(d)
    is t + d and t1.After(t2) is t2 < t1; time.Since(t) at instant now is
    now - t.
  - The connCount int32 is modelled as Int; the atomic add/sub instructions
    become plain +1 / -1 in the sequential (lock-serialized) semantics.
  - sync mutexes serialize the code we model; all functions here are the
    bodies of the corresponding Go functions under that serialization.
-/

namespace PhoreConnMgr

/-- A byte of a Go string. -/
abbrev Byte := Fin 256

/-- The opaque peer identifier (Go peer.ID, a byte string). -/
abbrev PeerId := List Byte

/-- A protocol identifier (Go protocol.ID, a string). -/
abbrev ProtoId := String

/-- An opaque connection handle (Go network.Conn).  It is equality-comparable
and knows its remote peer; the numeric field distinguishes different handles
to the same peer. -/
structure Conn where
  peer : PeerId
  cid : Nat
deriving DecidableEq, Repr

/-- Association list lookup, the model of a Go map read returning (value, ok). -/
def assocGet? {α β : Type} [DecidableEq α] : List (α × β) → α → Option β
  | [], _ => none
  | (k, v) :: rest, key => if k = key then some v else assocGet? rest key

/-- Association list write, the model of a Go map assignment m[k] = v:
replace the binding if the key is present, append a new binding otherwise. -/
def assocSet {α β : Type} [DecidableEq α] : List (α × β) → α → β → List (α × β)
  | [], key, v => [(key, v)]
  | (k, w) :: rest, key, v =>
    if k = key then (key, v) :: rest else (k, w) :: assocSet rest key v

/-- Association list delete, the model of the Go builtin delete(m, k). -/
def assocRemove {α β : Type} [DecidableEq α] : List (α × β) → α → List (α × β)
  | [], _ => []
  | (k, v) :: rest, key =>
    if k = key then assocRemove rest key else (k, v) :: assocRemove rest key

/-- peerInfo stores metadata for a given peer (src/connmgr.go, type peerInfo). -/
structure PeerInfo where
  id : PeerId
  tags : List (String × Int)
  value : Int
  temp : Bool
  conns : List (Conn × Int)
  firstSeen : Int
deriving DecidableEq, Repr

/-- The registry contents: the concatenation of the 256 shard maps in shard
order, each map listed in its iteration order. -/
abbrev Registry := List (PeerId × PeerInfo)

/-- The state of a PhoreConnMgr instance (src/connmgr.go, type PhoreConnMgr).
The protected field of the Go struct is named protectedPeers here because
protected is a Lean keyword. -/
structure CMState where
  highWater : Int
  lowWater : Int
  connCount : Int
  gracePeriod : Int
  segments : Registry
  protectedPeers : List (PeerId × List String)
  minimumPeersForProtocol : List (ProtoId × Int)
  lastTrim : Int
  silencePeriod : Int
deriving DecidableEq, Repr

/-- The index computation of segments.get: the shard is selected by the last
byte of the peer identifier, which is out of bounds (a Go panic, modelled as
none) exactly when the identifier is empty. -/
def segmentsGet (p : PeerId) : Option Byte :=
  p.getLast?

/-- The connection handles held by a record. -/
def handles (inf : PeerInfo) : List Conn :=
  inf.conns.map Prod.fst

/-- tagInfoFor (src/connmgr.go): return the existing record of p, or create a
provisional (temp) record buffering early tags.  Returns the updated shard
contents together with the record. -/
def tagInfoFor (reg : Registry) (p : PeerId) (now : Int) : Registry × PeerInfo :=
  match assocGet? reg p with
  | some pi => (reg, pi)
  | none =>
    let pi : PeerInfo :=
      { id := p, firstSeen := now, temp := true, tags := [], conns := [], value := 0 }
    (reg ++ [(p, pi)], pi)

/-- TagPeer (src/connmgr.go): associate a string and integer with a peer,
maintaining the cached value incrementally.  none models the panic on an
empty peer identifier. -/
def TagPeer (reg : Registry) (p : PeerId) (tag : String) (val : Int) (now : Int) :
    Option Registry :=
  match segmentsGet p with
  | none => none
  | some _ =>
    let rp := tagInfoFor reg p now
    let pi := rp.2
    let pi2 := { pi with
      value := pi.value + (val - (assocGet? pi.tags tag).getD 0),
      tags := assocSet pi.tags tag val }
    some (assocSet rp.1 p pi2)

/-- UntagPeer (src/connmgr.go): disassociate a tag from a peer; a no-op (with
a log line) for an untracked peer. -/
def UntagPeer (reg : Registry) (p : PeerId) (tag : String) : Option Registry :=
  match segmentsGet p with
  | none => none
  | some _ =>
    match assocGet? reg p with
    | none => some reg
    | some pi =>
      let pi2 := { pi with
        value := pi.value - (assocGet? pi.tags tag).getD 0,
        tags := assocRemove pi.tags tag }
      some (assocSet reg p pi2)

/-- UpsertTag (src/connmgr.go): read-modify-write of one tag through the
caller-supplied function, maintaining the cached value incrementally. -/
def UpsertTag (reg : Registry) (p : PeerId) (tag : String) (upsert : Int → Int)
    (now : Int) : Option Registry :=
  match segmentsGet p with
  | none => none
  | some _ =>
    let rp := tagInfoFor reg p now
    let pi := rp.2
    let oldval := (assocGet? pi.tags tag).getD 0
    let newval := upsert oldval
    some (assocSet rp.1 p { pi with
      value := pi.value + (newval - oldval),
      tags := assocSet pi.tags tag newval })

/-- The snapshot returned by GetTagInfo (go-libp2p-core connmgr.TagInfo).  The
Go code keys the connection map by the remote multiaddr string; the multiaddr
is not modelled, so the copy stays keyed by the handle. -/
structure TagInfo where
  firstSeen : Int
  value : Int
  tags : List (String × Int)
  conns : List (Conn × Int)
deriving DecidableEq, Repr

/-- GetTagInfo (src/connmgr.go): fetch a copy of the tag information of a
peer; the inner none is the nil result for an unknown peer, the outer none
models the panic on an empty identifier. -/
def GetTagInfo (reg : Registry) (p : PeerId) : Option (Option TagInfo) :=
  match segmentsGet p with
  | none => none
  | some _ =>
    match assocGet? reg p with
    | none => some none
    | some pi =>
      some (some { firstSeen := pi.firstSeen, value := pi.value,
                   tags := pi.tags, conns := pi.conns })

/-- Protect (src/connmgr.go): add a reason tag to the protection registry for
a peer, creating its entry if absent. -/
def Protect (prot : List (PeerId × List String)) (p : PeerId) (tag : String) :
    List (PeerId × List String) :=
  match assocGet? prot p with
  | none => assocSet prot p [tag]
  | some tags => assocSet prot p (if tag ∈ tags then tags else tags ++ [tag])

/-- Unprotect (src/connmgr.go): remove a reason tag; if the reason set becomes
empty the peer entry is deleted.  Returns whether the peer is still
protected. -/
def Unprotect (prot : List (PeerId × List String)) (p : PeerId) (tag : String) :
    List (PeerId × List String) × Bool :=
  match assocGet? prot p with
  | none => (prot, false)
  | some tags =>
    let tags2 := tags.filter (fun t => decide (t ≠ tag))
    if tags2 = [] then (assocRemove prot p, false)
    else (assocSet prot p tags2, true)

/-- Connected (src/connmgr.go, cmNotifee): start tracking a connection.
Creates the record if absent; promotes a provisional record (note that the
promotion is written back even when the subsequent duplicate-handle check
fires, exactly as the Go code mutates the record in place before that check).
Increments connCount on any successful addition.  none models the panic on an
empty remote peer identifier. -/
def Connected (st : CMState) (c : Conn) (now : Int) : Option CMState :=
  match segmentsGet c.peer with
  | none => none
  | some _ =>
    match assocGet? st.segments c.peer with
    | none =>
      let pinfo : PeerInfo :=
        { id := c.peer, firstSeen := now, temp := false, tags := [], value := 0,
          conns := [(c, now)] }
      some { st with segments := st.segments ++ [(c.peer, pinfo)],
                     connCount := st.connCount + 1 }
    | some pinfo0 =>
      let pinfo := if pinfo0.temp
        then { pinfo0 with temp := false, firstSeen := now } else pinfo0
      if (assocGet? pinfo.conns c).isSome then
        some { st with segments := assocSet st.segments c.peer pinfo }
      else
        some { st with
          segments := assocSet st.segments c.peer
            { pinfo with conns := assocSet pinfo.conns c now },
          connCount := st.connCount + 1 }

/-- Disconnected (src/connmgr.go, cmNotifee): stop tracking a connection;
stale notifications (unknown peer or untracked handle) are logged no-ops.
Deletes the record when its last connection goes away. -/
def Disconnected (st : CMState) (c : Conn) : Option CMState :=
  match segmentsGet c.peer with
  | none => none
  | some _ =>
    match assocGet? st.segments c.peer with
    | none => some st
    | some cinf =>
      if (assocGet? cinf.conns c).isSome then
        let conns2 := assocRemove cinf.conns c
        let segs := if conns2 = [] then assocRemove st.segments c.peer
          else assocSet st.segments c.peer { cinf with conns := conns2 }
        some { st with segments := segs, connCount := st.connCount - 1 }
      else some st

/-- The count read numPeersForProto[pr], defaulting to 0 for an absent key. -/
def countOf (counts : List (ProtoId × Nat)) (pr : ProtoId) : Nat :=
  (assocGet? counts pr).getD 0

/-- The numPeersForProto update of getConnsToClose: insert 1 for a protocol
seen for the first time, increment otherwise. -/
def bumpCount (counts : List (ProtoId × Nat)) (pr : ProtoId) :
    List (ProtoId × Nat) :=
  match assocGet? counts pr with
  | none => assocSet counts pr 1
  | some n => assocSet counts pr (n + 1)

/-- The inner protocol loop of getConnsToClose (src/connmgr.go lines 252-269):
walk the supported protocols of one peer, bumping the running per-protocol
counters; the Bool result is true when the peer is exempted from pruning
because some quota-bearing protocol has not yet seen more than its minimum
number of peers (the continue next_peer_loop path, which abandons the rest of
the protocol list). -/
def quotaScan (minima : List (ProtoId × Int)) :
    List ProtoId → List (ProtoId × Nat) → List (ProtoId × Nat) × Bool
  | [], counts => (counts, false)
  | pr :: rest, counts =>
    let counts2 := bumpCount counts pr
    match assocGet? minima pr with
    | none => quotaScan minima rest counts2
    | some minPeers =>
      if minPeers ≤ 0 then quotaScan minima rest counts2
      else if (countOf counts2 pr : Int) ≤ minPeers then (counts2, true)
      else quotaScan minima rest counts2

/-- The shard scan of getConnsToClose (src/connmgr.go lines 237-274): walk the
registry in iteration order, skip protected peers, treat a failed protocol
lookup as an unconditional candidate, and otherwise run the quota loop.
Returns the candidate records together with the final counters.  This variant
keeps the map key paired with each emitted record; the code builds only the
record list (see scanPeers below). -/
def scanPairs (prot : List (PeerId × List String)) (minima : List (ProtoId × Int))
    (protosOf : PeerId → Option (List ProtoId)) :
    Registry → List (ProtoId × Nat) → Registry × List (ProtoId × Nat)
  | [], counts => ([], counts)
  | (p, inf) :: rest, counts =>
    if (assocGet? prot p).isSome then scanPairs prot minima protosOf rest counts
    else
      match protosOf p with
      | none =>
        let r := scanPairs prot minima protosOf rest counts
        ((p, inf) :: r.1, r.2)
      | some protos =>
        let q := quotaScan minima protos counts
        if q.2 then scanPairs prot minima protosOf rest q.1
        else
          let r := scanPairs prot minima protosOf rest q.1
          ((p, inf) :: r.1, r.2)

/-- The candidate list built by the shard scan, exactly as the code holds it
(a list of records). -/
def scanPeers (prot : List (PeerId × List String)) (minima : List (ProtoId × Int))
    (protosOf : PeerId → Option (List ProtoId)) (reg : Registry)
    (counts : List (ProtoId × Nat)) : List PeerInfo :=
  (scanPairs prot minima protosOf reg counts).1.map Prod.snd

/-- The sort order of the candidate sort (src/connmgr.go lines 278-286) as a
non-strict total preorder: leInfo a b holds exactly when the strict less
function of the code does not place b before a.  Provisional records sort
first, then ascending cached value. -/
def leInfo (a b : PeerInfo) : Bool :=
  if a.temp = b.temp then decide (a.value ≤ b.value) else a.temp

/-- The sort order as a relation, for the sorting routine.  The sort in
sort.Slice is an arbitrary (unstable) sorting algorithm: its output is some
permutation of the candidates sorted with respect to leInfo, and insertion
sort realizes one such admissible output. -/
def leR (a b : PeerInfo) : Prop :=
  leInfo a b = true

instance : DecidableRel leR :=
  fun a b => instDecidableEqBool (leInfo a b) true

/-- The selection walk of getConnsToClose (src/connmgr.go lines 293-317):
walk the sorted candidates while target is positive; skip peers still inside
the grace window; delete stale provisional records (returned as the second
component, the ids removed from their shards); otherwise collect every
connection of the record and subtract its connection count from target. -/
def selectConns (grace now : Int) :
    List PeerInfo → Int → List Conn × List PeerId
  | [], _ => ([], [])
  | inf :: rest, target =>
    if target ≤ 0 then ([], [])
    else if now < inf.firstSeen + grace then selectConns grace now rest target
    else if inf.conns = [] ∧ inf.temp then
      let r := selectConns grace now rest (target - inf.conns.length)
      (r.1, inf.id :: r.2)
    else
      let r := selectConns grace now rest (target - inf.conns.length)
      (handles inf ++ r.1, r.2)

/-- getConnsToClose (src/connmgr.go lines 219-320): the trim selection
heuristics.  Returns the connections to close together with the registry as
left behind (stale provisional records deleted).  The protocol capability
lookup of the external peerstore is the protosOf parameter; now is the
time.Now() instant taken at the top of the function. -/
def getConnsToCloseFull (st : CMState)
    (protosOf : PeerId → Option (List ProtoId)) (now : Int) :
    List Conn × Registry :=
  if st.lowWater = 0 ∨ st.highWater = 0 then ([], st.segments)
  else if st.connCount ≤ st.lowWater then ([], st.segments)
  else
    let candidates := scanPeers st.protectedPeers st.minimumPeersForProtocol
      protosOf st.segments []
    let sorted := List.insertionSort leR candidates
    let r := selectConns st.gracePeriod now sorted (st.connCount - st.lowWater)
    (r.1, st.segments.filter (fun pi => decide (pi.1 ∉ r.2)))

/-- The connection list returned by getConnsToClose. -/
def getConnsToClose (st : CMState)
    (protosOf : PeerId → Option (List ProtoId)) (now : Int) : List Conn :=
  (getConnsToCloseFull st protosOf now).1

/-- TrimOpenConns (src/connmgr.go lines 178-198) under the single-flight slot
(the in-progress semaphore is free in this sequential model): skip entirely
when less than the silence period has elapsed since the last trim, otherwise
close the selected connections and record now2 (the time.Now() taken after
the closures) as the new last-trim instant.  Returns the new manager state
and the list of connections whose closure was requested. -/
def TrimOpenConns (st : CMState) (protosOf : PeerId → Option (List ProtoId))
    (now now2 : Int) : CMState × List Conn :=
  if now - st.lastTrim < st.silencePeriod then (st, [])
  else
    let r := getConnsToCloseFull st protosOf now
    ({ st with segments := r.2, lastTrim := now2 }, r.1)


/-! ### Association list lemmas -/

section AssocLemmas

variable {α β : Type} [DecidableEq α]

theorem assocGet?_set_self (l : List (α × β)) (k : α) (v : β) :
    assocGet? (assocSet l k v) k = some v := by
  induction l with
  | nil => simp [assocSet, assocGet?]
  | cons hd tl ih =>
    obtain ⟨a, b⟩ := hd
    by_cases h : a = k
    · simp [assocSet, h, assocGet?]
    · simp [assocSet, h, assocGet?, ih]

theorem assocGet?_set_ne (l : List (α × β)) (k k2 : α) (v : β) (h : k2 ≠ k) :
    assocGet? (assocSet l k v) k2 = assocGet? l k2 := by
  have h2 : k ≠ k2 := Ne.symm h
  induction l with
  | nil => simp [assocSet, assocGet?, h2]
  | cons hd tl ih =>
    obtain ⟨a, b⟩ := hd
    by_cases hh : a = k
    · subst hh
      simp [assocSet, assocGet?, h2]
    · simp [assocSet, hh, assocGet?, ih]

theorem assocSet_self (l : List (α × β)) (k : α) (v : β)
    (h : assocGet? l k = some v) : assocSet l k v = l := by
  induction l with
  | nil => simp [assocGet?] at h
  | cons hd tl ih =>
    obtain ⟨a, b⟩ := hd
    by_cases hh : a = k
    · subst hh
      simp [assocGet?] at h
      simp [assocSet, h]
    · simp [assocGet?, hh] at h
      simp [assocSet, hh, ih h]

theorem mem_assocSet {l : List (α × β)} {k : α} {v : β} {x : α × β}
    (h : x ∈ assocSet l k v) : x ∈ l ∨ x = (k, v) := by
  induction l with
  | nil => simpa [assocSet] using h
  | cons hd tl ih =>
    obtain ⟨a, b⟩ := hd
    by_cases hh : a = k
    · rw [assocSet, if_pos hh] at h
      rcases List.mem_cons.1 h with h | h
      · exact Or.inr h
      · exact Or.inl (List.mem_cons_of_mem _ h)
    · rw [assocSet, if_neg hh] at h
      rcases List.mem_cons.1 h with h | h
      · exact Or.inl (by simp [h])
      · rcases ih h with h2 | h2
        · exact Or.inl (List.mem_cons_of_mem _ h2)
        · exact Or.inr h2

theorem assocSet_map_fst_of_get (l : List (α × β)) (k : α) (v w : β)
    (h : assocGet? l k = some w) :
    (assocSet l k v).map Prod.fst = l.map Prod.fst := by
  induction l with
  | nil => simp [assocGet?] at h
  | cons hd tl ih =>
    obtain ⟨a, b⟩ := hd
    by_cases hh : a = k
    · subst hh
      simp [assocSet]
    · simp [assocGet?, hh] at h
      simp [assocSet, hh, ih h]

theorem assocSet_map_fst_of_none (l : List (α × β)) (k : α) (v : β)
    (h : assocGet? l k = none) :
    (assocSet l k v).map Prod.fst = l.map Prod.fst ++ [k] := by
  induction l with
  | nil => simp [assocSet]
  | cons hd tl ih =>
    obtain ⟨a, b⟩ := hd
    by_cases hh : a = k
    · simp [assocGet?, hh] at h
    · simp [assocGet?, hh] at h
      simp [assocSet, hh, ih h]

theorem assocGet?_isSome_iff_mem_keys (l : List (α × β)) (k : α) :
    (assocGet? l k).isSome ↔ k ∈ l.map Prod.fst := by
  induction l with
  | nil => simp [assocGet?]
  | cons hd tl ih =>
    obtain ⟨a, b⟩ := hd
    by_cases hh : a = k
    · subst hh
      simp [assocGet?]
    · simp [assocGet?, hh, ih, Ne.symm hh]

theorem assocGet?_eq_none_iff (l : List (α × β)) (k : α) :
    assocGet? l k = none ↔ k ∉ l.map Prod.fst := by
  rw [← assocGet?_isSome_iff_mem_keys]
  cases assocGet? l k <;> simp

theorem assocRemove_map_fst_sublist (l : List (α × β)) (k : α) :
    ((assocRemove l k).map Prod.fst).Sublist (l.map Prod.fst) := by
  induction l with
  | nil => simp [assocRemove]
  | cons hd tl ih =>
    obtain ⟨a, b⟩ := hd
    by_cases hh : a = k
    · rw [assocRemove, if_pos hh, List.map_cons]
      exact ih.trans (List.sublist_cons_self _ _)
    · rw [assocRemove, if_neg hh, List.map_cons, List.map_cons]
      exact ih.cons₂ a

theorem assocGet?_remove_self (l : List (α × β)) (k : α) :
    assocGet? (assocRemove l k) k = none := by
  induction l with
  | nil => simp [assocRemove, assocGet?]
  | cons hd tl ih =>
    obtain ⟨a, b⟩ := hd
    by_cases hh : a = k
    · rw [assocRemove, if_pos hh]
      exact ih
    · rw [assocRemove, if_neg hh, assocGet?, if_neg hh]
      exact ih

theorem assocRemove_of_none (l : List (α × β)) (k : α)
    (h : assocGet? l k = none) : assocRemove l k = l := by
  induction l with
  | nil => simp [assocRemove]
  | cons hd tl ih =>
    obtain ⟨a, b⟩ := hd
    by_cases hh : a = k
    · simp [assocGet?, hh] at h
    · simp [assocGet?, hh] at h
      rw [assocRemove, if_neg hh, ih h]

theorem assocRemove_length_of_mem (l : List (α × β)) (k : α)
    (hn : (l.map Prod.fst).Nodup) (h : (assocGet? l k).isSome) :
    (assocRemove l k).length + 1 = l.length := by
  induction l with
  | nil => simp [assocGet?] at h
  | cons hd tl ih =>
    obtain ⟨a, b⟩ := hd
    simp only [List.map_cons, List.nodup_cons] at hn
    by_cases hh : a = k
    · subst hh
      have htl : assocGet? tl a = none := (assocGet?_eq_none_iff tl a).2 hn.1
      rw [assocRemove, if_pos rfl, assocRemove_of_none tl a htl]
      simp
    · rw [assocGet?, if_neg hh] at h
      rw [assocRemove, if_neg hh]
      have := ih hn.2 h
      simp only [List.length_cons]
      omega

end AssocLemmas

/-! ### Claim C3: Unprotect on a missing reason or unknown peer -/

/-- C3 counterexample: the claim says Unprotect returns false whenever the
peer is present but its reason set does not contain the given reason.  At the
concrete input where peer [0] is protected with reason keep only, unprotecting
reason other returns true (the peer is still protected), so the claim as
stated is false. -/
theorem unprotect_no_match_cex :
    ¬ ((Unprotect [([(0 : Byte)], ["keep"])] [(0 : Byte)] "other").2 = false) := by
  decide

/-- C3 (amended): Unprotect for an unknown peer leaves the protection
registry unchanged and returns false; Unprotect for a present peer whose
(non-empty) reason set does not contain the reason leaves the registry
unchanged and returns true, i.e. reports that the peer is still protected. -/
theorem unprotect_no_match_noop (prot : List (PeerId × List String))
    (p : PeerId) (tag : String) :
    (assocGet? prot p = none → Unprotect prot p tag = (prot, false))
    ∧ (∀ tags, assocGet? prot p = some tags → tags ≠ [] → tag ∉ tags →
        Unprotect prot p tag = (prot, true)) := by
  constructor
  · intro h
    simp [Unprotect, h]
  · intro tags h hne hmem
    have hf : tags.filter (fun t => decide (t ≠ tag)) = tags := by
      refine List.filter_eq_self.2 (fun a ha => ?_)
      simp only [decide_eq_true_eq]
      rintro rfl
      exact hmem ha
    simp only [Unprotect, h]
    rw [hf, if_neg hne, assocSet_self prot p tags h]

/-- Witness for the amended C3 theorem at concrete inputs. -/
theorem unprotect_no_match_noop_witness :
    Unprotect [] [(0 : Byte)] "x" = ([], false)
    ∧ Unprotect [([(0 : Byte)], ["keep"])] [(0 : Byte)] "other"
        = ([([(0 : Byte)], ["keep"])], true) :=
  ⟨(unprotect_no_match_noop [] [(0 : Byte)] "x").1 rfl,
   (unprotect_no_match_noop [([(0 : Byte)], ["keep"])] [(0 : Byte)] "other").2
     ["keep"] rfl (by decide) (by decide)⟩

/-! ### Claim C9: silence interval suppression -/

/-- C9: a TrimOpenConns call that begins less than the silence period after
the recorded completion time of the previous trim does no work at all: the
manager state (every peer record and the last-trim timestamp included) is
returned unchanged and no connection is selected or closed. -/
theorem trimOpenConns_silence (st : CMState)
    (protosOf : PeerId → Option (List ProtoId)) (now now2 : Int)
    (h : now - st.lastTrim < st.silencePeriod) :
    TrimOpenConns st protosOf now now2 = (st, []) := by
  simp [TrimOpenConns, h]

/-- A concrete manager state used to witness the silence suppression
theorem: one tracked peer, lastTrim 0, silencePeriod 10. -/
def stSilence : CMState where
  highWater := 2
  lowWater := 1
  connCount := 3
  gracePeriod := 0
  segments := [([(1 : Byte)],
    { id := [(1 : Byte)], tags := [], value := 0, temp := false,
      conns := [(Conn.mk [(1 : Byte)] 0, 0)], firstSeen := 0 })]
  protectedPeers := []
  minimumPeersForProtocol := []
  lastTrim := 0
  silencePeriod := 10

/-- Witness for the silence suppression theorem at a concrete state. -/
theorem trimOpenConns_silence_witness :
    TrimOpenConns stSilence (fun _ => some []) 5 6 = (stSilence, []) :=
  trimOpenConns_silence stSilence (fun _ => some []) 5 6 (by decide)

/-! ### Claim C10: shard selection and the empty peer identifier -/

/-- C10: every per-peer operation selects its shard by indexing the last byte
of the peer identifier; that index exists exactly when the identifier is
non-empty, and each of TagPeer, UntagPeer, UpsertTag, GetTagInfo, Connected
and Disconnected is defined (does not panic, modelled as returning some)
exactly when the identifier of the affected peer is non-empty. -/
theorem ops_defined_iff_nonempty_id :
    (∀ p : PeerId, (segmentsGet p).isSome ↔ p ≠ [])
    ∧ (∀ (reg : Registry) (p : PeerId) (tag : String) (val now : Int),
        (TagPeer reg p tag val now).isSome ↔ p ≠ [])
    ∧ (∀ (reg : Registry) (p : PeerId) (tag : String),
        (UntagPeer reg p tag).isSome ↔ p ≠ [])
    ∧ (∀ (reg : Registry) (p : PeerId) (tag : String) (f : Int → Int) (now : Int),
        (UpsertTag reg p tag f now).isSome ↔ p ≠ [])
    ∧ (∀ (reg : Registry) (p : PeerId), (GetTagInfo reg p).isSome ↔ p ≠ [])
    ∧ (∀ (st : CMState) (c : Conn) (now : Int),
        (Connected st c now).isSome ↔ c.peer ≠ [])
    ∧ (∀ (st : CMState) (c : Conn), (Disconnected st c).isSome ↔ c.peer ≠ []) := by
  have hseg : ∀ p : PeerId, (segmentsGet p).isSome ↔ p ≠ [] := by
    intro p
    exact List.getLast?_isSome
  have hsegSome : ∀ p : PeerId, p ≠ [] → ∃ b, segmentsGet p = some b := by
    intro p hp
    rcases Option.isSome_iff_exists.1 ((hseg p).2 hp) with ⟨b, hb⟩
    exact ⟨b, hb⟩
  have hsegNone : ∀ p : PeerId, p = [] → segmentsGet p = none := by
    rintro p rfl
    rfl
  refine ⟨hseg, ?_, ?_, ?_, ?_, ?_, ?_⟩
  · intro reg p tag val now
    by_cases hp : p = []
    · subst hp
      simp [TagPeer, show segmentsGet ([] : PeerId) = none from rfl]
    · rcases hsegSome p hp with ⟨b, hb⟩
      simp [TagPeer, hb, hp]
  · intro reg p tag
    by_cases hp : p = []
    · subst hp
      simp [UntagPeer, show segmentsGet ([] : PeerId) = none from rfl]
    · rcases hsegSome p hp with ⟨b, hb⟩
      simp only [UntagPeer, hb]
      cases assocGet? reg p <;> simp [hp]
  · intro reg p tag f now
    by_cases hp : p = []
    · subst hp
      simp [UpsertTag, show segmentsGet ([] : PeerId) = none from rfl]
    · rcases hsegSome p hp with ⟨b, hb⟩
      simp [UpsertTag, hb, hp]
  · intro reg p
    by_cases hp : p = []
    · subst hp
      simp [GetTagInfo, show segmentsGet ([] : PeerId) = none from rfl]
    · rcases hsegSome p hp with ⟨b, hb⟩
      simp only [GetTagInfo, hb]
      cases assocGet? reg p <;> simp [hp]
  · intro st c now
    by_cases hp : c.peer = []
    · simp [Connected, hp, show segmentsGet ([] : PeerId) = none from rfl]
    · rcases hsegSome c.peer hp with ⟨b, hb⟩
      simp only [Connected, hb]
      cases assocGet? st.segments c.peer with
      | none => simp [hp]
      | some pinfo =>
        by_cases hc : (assocGet? (if pinfo.temp then
            { pinfo with temp := false, firstSeen := now } else pinfo).conns c).isSome
        <;> simp [hc, hp]
  · intro st c
    by_cases hp : c.peer = []
    · simp [Disconnected, hp, show segmentsGet ([] : PeerId) = none from rfl]
    · rcases hsegSome c.peer hp with ⟨b, hb⟩
      simp only [Disconnected, hb]
      cases assocGet? st.segments c.peer with
      | none => simp [hp]
      | some cinf =>
        by_cases hc : (assocGet? cinf.conns c).isSome <;>
          [skip; skip] <;> simp only [hc] <;> split <;> simp [hp]

/-! ### Claim C4: tag/value consistency -/

/-- The sum of the integer entries of a tag map. -/
def sumTags (l : List (String × Int)) : Int :=
  (l.map Prod.snd).sum

theorem assocGet?_mem {α β : Type} [DecidableEq α] (l : List (α × β)) (k : α)
    (v : β) (h : assocGet? l k = some v) : (k, v) ∈ l := by
  induction l with
  | nil => simp [assocGet?] at h
  | cons hd tl ih =>
    obtain ⟨a, b⟩ := hd
    by_cases hh : a = k
    · subst hh
      rw [assocGet?, if_pos rfl] at h
      simp at h
      simp [h]
    · rw [assocGet?, if_neg hh] at h
      exact List.mem_cons_of_mem _ (ih h)

theorem sumTags_assocSet (l : List (String × Int)) (k : String) (v : Int) :
    sumTags (assocSet l k v) = sumTags l + v - (assocGet? l k).getD 0 := by
  induction l with
  | nil => simp [assocSet, sumTags, assocGet?]
  | cons hd tl ih =>
    obtain ⟨a, b⟩ := hd
    by_cases hh : a = k
    · subst hh
      rw [assocSet, if_pos rfl, assocGet?, if_pos rfl]
      simp [sumTags]
      ring
    · rw [assocSet, if_neg hh, assocGet?, if_neg hh]
      simp only [sumTags, List.map_cons, List.sum_cons] at *
      omega

theorem sumTags_assocRemove (l : List (String × Int)) (k : String)
    (hn : (l.map Prod.fst).Nodup) :
    sumTags (assocRemove l k) = sumTags l - (assocGet? l k).getD 0 := by
  induction l with
  | nil => simp [assocRemove, sumTags, assocGet?]
  | cons hd tl ih =>
    obtain ⟨a, b⟩ := hd
    simp only [List.map_cons, List.nodup_cons] at hn
    by_cases hh : a = k
    · subst hh
      have htl : assocGet? tl a = none := (assocGet?_eq_none_iff tl a).2 hn.1
      rw [assocRemove, if_pos rfl, assocRemove_of_none tl a htl,
        assocGet?, if_pos rfl]
      simp [sumTags]
    · rw [assocRemove, if_neg hh, assocGet?, if_neg hh]
      simp only [sumTags, List.map_cons, List.sum_cons] at *
      rw [ih hn.2]
      omega

theorem assocSet_keys_nodup {α β : Type} [DecidableEq α] (l : List (α × β))
    (k : α) (v : β) (hn : (l.map Prod.fst).Nodup) :
    ((assocSet l k v).map Prod.fst).Nodup := by
  cases h : assocGet? l k with
  | some w => rw [assocSet_map_fst_of_get l k v w h]; exact hn
  | none =>
    rw [assocSet_map_fst_of_none l k v h]
    have hk : k ∉ l.map Prod.fst := (assocGet?_eq_none_iff l k).1 h
    simp [List.nodup_append, hn, hk]

theorem assocRemove_keys_nodup {α β : Type} [DecidableEq α] (l : List (α × β))
    (k : α) (hn : (l.map Prod.fst).Nodup) :
    ((assocRemove l k).map Prod.fst).Nodup :=
  hn.sublist (assocRemove_map_fst_sublist l k)

/-- The invariant of claim C4: every record caches the sum of its tag map. -/
def valueInv (reg : Registry) : Prop :=
  ∀ pi ∈ reg, pi.2.value = sumTags pi.2.tags

/-- Well-formedness of the tag maps: association lists with unique keys, as
Go maps are. -/
def tagsWF (reg : Registry) : Prop :=
  ∀ pi ∈ reg, (pi.2.tags.map Prod.fst).Nodup

/-- One tag mutation of the public interface. -/
inductive TagOp where
  | tag (p : PeerId) (name : String) (val : Int) (now : Int)
  | untag (p : PeerId) (name : String)
  | upsert (p : PeerId) (name : String) (f : Int → Int) (now : Int)

/-- Dispatch one tag operation. -/
def applyTagOp (reg : Registry) : TagOp → Option Registry
  | .tag p name val now => TagPeer reg p name val now
  | .untag p name => UntagPeer reg p name
  | .upsert p name f now => UpsertTag reg p name f now

/-- Apply a finite sequence of tag operations. -/
def applyTagOps (reg : Registry) : List TagOp → Option Registry
  | [] => some reg
  | op :: ops => (applyTagOp reg op).bind (fun reg2 => applyTagOps reg2 ops)

theorem tagPeer_inv (reg : Registry) (p : PeerId) (name : String)
    (val now : Int) (reg2 : Registry) (hwf : tagsWF reg) (hv : valueInv reg)
    (h : TagPeer reg p name val now = some reg2) :
    valueInv reg2 ∧ tagsWF reg2 := by
  rw [TagPeer] at h
  cases hsg : segmentsGet p with
  | none => rw [hsg] at h; exact absurd h (by simp)
  | some b =>
    rw [hsg] at h
    simp only [Option.some.injEq] at h
    subst h
    cases hg : assocGet? reg p with
    | some pi =>
      have hmem : (p, pi) ∈ reg := assocGet?_mem reg p pi hg
      constructor
      · intro x hx
        rcases mem_assocSet (by rw [tagInfoFor, hg] at hx; exact hx) with hx2 | hx2
        · exact hv x hx2
        · subst hx2
          simp only [tagInfoFor, hg]
          rw [sumTags_assocSet]
          have := hv (p, pi) hmem
          simp only at this
          simp [this]
          ring
      · intro x hx
        rcases mem_assocSet (by rw [tagInfoFor, hg] at hx; exact hx) with hx2 | hx2
        · exact hwf x hx2
        · subst hx2
          simp only [tagInfoFor, hg]
          exact assocSet_keys_nodup _ _ _ (hwf (p, pi) hmem)
    | none =>
      constructor
      · intro x hx
        rw [tagInfoFor, hg] at hx
        rcases mem_assocSet hx with hx2 | hx2
        · rcases List.mem_append.1 hx2 with hx3 | hx3
          · exact hv x hx3
          · simp at hx3
            simp [hx3, sumTags]
        · subst hx2
          simp only
          rw [sumTags_assocSet]
          simp [assocGet?, sumTags]
      · intro x hx
        rw [tagInfoFor, hg] at hx
        rcases mem_assocSet hx with hx2 | hx2
        · rcases List.mem_append.1 hx2 with hx3 | hx3
          · exact hwf x hx3
          · simp at hx3
            simp [hx3]
        · subst hx2
          simp only
          exact assocSet_keys_nodup _ _ _ (by simp)

theorem untagPeer_inv (reg : Registry) (p : PeerId) (name : String)
    (reg2 : Registry) (hwf : tagsWF reg) (hv : valueInv reg)
    (h : UntagPeer reg p name = some reg2) :
    valueInv reg2 ∧ tagsWF reg2 := by
  rw [UntagPeer] at h
  cases hsg : segmentsGet p with
  | none => rw [hsg] at h; exact absurd h (by simp)
  | some b =>
    rw [hsg] at h
    cases hg : assocGet? reg p with
    | none =>
      rw [hg] at h
      simp only [Option.some.injEq] at h
      subst h
      exact ⟨hv, hwf⟩
    | some pi =>
      rw [hg] at h
      simp only [Option.some.injEq] at h
      subst h
      have hmem : (p, pi) ∈ reg := assocGet?_mem reg p pi hg
      constructor
      · intro x hx
        rcases mem_assocSet hx with hx2 | hx2
        · exact hv x hx2
        · subst hx2
          simp only
          rw [sumTags_assocRemove _ _ (hwf (p, pi) hmem)]
          have h3 := hv (p, pi) hmem
          simp only [Prod.snd] at h3
          simp [h3]
      · intro x hx
        rcases mem_assocSet hx with hx2 | hx2
        · exact hwf x hx2
        · subst hx2
          exact assocRemove_keys_nodup _ _ (hwf (p, pi) hmem)

theorem upsertTag_inv (reg : Registry) (p : PeerId) (name : String)
    (f : Int → Int) (now : Int) (reg2 : Registry) (hwf : tagsWF reg)
    (hv : valueInv reg) (h : UpsertTag reg p name f now = some reg2) :
    valueInv reg2 ∧ tagsWF reg2 := by
  rw [UpsertTag] at h
  cases hsg : segmentsGet p with
  | none => rw [hsg] at h; exact absurd h (by simp)
  | some b =>
    rw [hsg] at h
    simp only [Option.some.injEq] at h
    subst h
    cases hg : assocGet? reg p with
    | some pi =>
      have hmem : (p, pi) ∈ reg := assocGet?_mem reg p pi hg
      constructor
      · intro x hx
        rcases mem_assocSet (by rw [tagInfoFor, hg] at hx; exact hx) with hx2 | hx2
        · exact hv x hx2
        · subst hx2
          simp only [tagInfoFor, hg]
          rw [sumTags_assocSet]
          have := hv (p, pi) hmem
          simp only at this
          simp [this]
          ring
      · intro x hx
        rcases mem_assocSet (by rw [tagInfoFor, hg] at hx; exact hx) with hx2 | hx2
        · exact hwf x hx2
        · subst hx2
          simp only [tagInfoFor, hg]
          exact assocSet_keys_nodup _ _ _ (hwf (p, pi) hmem)
    | none =>
      constructor
      · intro x hx
        rw [tagInfoFor, hg] at hx
        rcases mem_assocSet hx with hx2 | hx2
        · rcases List.mem_append.1 hx2 with hx3 | hx3
          · exact hv x hx3
          · simp at hx3
            simp [hx3, sumTags]
        · subst hx2
          simp only
          rw [sumTags_assocSet]
          simp [assocGet?, sumTags]
      · intro x hx
        rw [tagInfoFor, hg] at hx
        rcases mem_assocSet hx with hx2 | hx2
        · rcases List.mem_append.1 hx2 with hx3 | hx3
          · exact hwf x hx3
          · simp at hx3
            simp [hx3]
        · subst hx2
          simp only
          exact assocSet_keys_nodup _ _ _ (by simp)

theorem applyTagOp_inv (reg : Registry) (op : TagOp) (reg2 : Registry)
    (hwf : tagsWF reg) (hv : valueInv reg)
    (h : applyTagOp reg op = some reg2) : valueInv reg2 ∧ tagsWF reg2 := by
  cases op with
  | tag p name val now => exact tagPeer_inv reg p name val now reg2 hwf hv h
  | untag p name => exact untagPeer_inv reg p name reg2 hwf hv h
  | upsert p name f now => exact upsertTag_inv reg p name f now reg2 hwf hv h

/-- C4: the cached value of every peer record equals the sum of the entries
of its tag map, both as an invariant preserved by every single tag operation
(TagPeer, UntagPeer, UpsertTag) on a well-formed registry, and as a property
of the registry reached by any finite sequence of tag operations from the
initial empty registry. -/
theorem tag_value_consistency :
    (∀ (reg : Registry) (op : TagOp) (reg2 : Registry),
        tagsWF reg → valueInv reg → applyTagOp reg op = some reg2 →
        valueInv reg2 ∧ tagsWF reg2)
    ∧ (∀ (ops : List TagOp) (reg : Registry),
        applyTagOps [] ops = some reg → valueInv reg) := by
  have main : ∀ (ops : List TagOp) (reg0 reg : Registry), tagsWF reg0 →
      valueInv reg0 → applyTagOps reg0 ops = some reg → valueInv reg := by
    intro ops
    induction ops with
    | nil =>
      intro reg0 reg _ hv h
      simp only [applyTagOps, Option.some.injEq] at h
      subst h
      exact hv
    | cons op ops ih =>
      intro reg0 reg hwf hv h
      simp only [applyTagOps] at h
      cases hstep : applyTagOp reg0 op with
      | none => rw [hstep] at h; exact absurd h (by simp)
      | some reg1 =>
        rw [hstep] at h
        simp only [Option.some_bind] at h
        have h2 := applyTagOp_inv reg0 op reg1 hwf hv hstep
        exact ih reg1 reg h2.2 h2.1 h
  refine ⟨fun reg op reg2 hwf hv h => applyTagOp_inv reg op reg2 hwf hv h,
    fun ops reg h => main ops [] reg ?_ ?_ h⟩
  · intro x hx
    simp at hx
  · intro x hx
    simp at hx

/-- The tag operation sequence of the C4 witness. -/
def tagOpsW : List TagOp :=
  [.tag [1] "a" 3 0, .upsert [1] "a" (fun x => x + 2) 0,
   .tag [2] "b" 5 1, .untag [1] "a"]

/-- The registry reached by the C4 witness sequence. -/
def tagRegW : Registry :=
  [([1], { id := [1], tags := [], value := 0, temp := true,
           conns := [], firstSeen := 0 }),
   ([2], { id := [2], tags := [("b", 5)], value := 5, temp := true,
           conns := [], firstSeen := 1 })]

/-- Witness for the tag/value consistency theorem: a concrete operation
sequence from the empty registry reaches tagRegW, whose records all satisfy
the invariant. -/
theorem tag_value_consistency_witness : valueInv tagRegW :=
  tag_value_consistency.2 tagOpsW tagRegW rfl

/-! ### Claims C5 and C6: connection tracking -/

theorem mem_assocRemove {α β : Type} [DecidableEq α] {l : List (α × β)}
    {k : α} {x : α × β} (h : x ∈ assocRemove l k) : x ∈ l := by
  induction l with
  | nil => simpa [assocRemove] using h
  | cons hd tl ih =>
    obtain ⟨a, b⟩ := hd
    by_cases hh : a = k
    · rw [assocRemove, if_pos hh] at h
      exact List.mem_cons_of_mem _ (ih h)
    · rw [assocRemove, if_neg hh] at h
      rcases List.mem_cons.1 h with h | h
      · exact List.mem_cons.2 (Or.inl h)
      · exact List.mem_cons_of_mem _ (ih h)

theorem assocSet_length_of_none {α β : Type} [DecidableEq α]
    (l : List (α × β)) (k : α) (v : β) (h : assocGet? l k = none) :
    (assocSet l k v).length = l.length + 1 := by
  induction l with
  | nil => simp [assocSet]
  | cons hd tl ih =>
    obtain ⟨a, b⟩ := hd
    by_cases hh : a = k
    · simp [assocGet?, hh] at h
    · simp [assocGet?, hh] at h
      rw [assocSet, if_neg hh]
      simp [ih h]

theorem map_sum_assocSet {α β : Type} [DecidableEq α] (f : β → Int)
    (l : List (α × β)) (k : α) (v w : β) (h : assocGet? l k = some w) :
    ((assocSet l k v).map (fun kv => f kv.2)).sum
      = (l.map (fun kv => f kv.2)).sum + f v - f w := by
  induction l with
  | nil => simp [assocGet?] at h
  | cons hd tl ih =>
    obtain ⟨a, b⟩ := hd
    by_cases hh : a = k
    · subst hh
      rw [assocGet?, if_pos rfl] at h
      simp only [Option.some.injEq] at h
      subst h
      rw [assocSet, if_pos rfl]
      simp
      ring
    · rw [assocGet?, if_neg hh] at h
      rw [assocSet, if_neg hh]
      simp only [List.map_cons, List.sum_cons, ih h]
      ring

theorem map_sum_assocRemove {α β : Type} [DecidableEq α] (f : β → Int)
    (l : List (α × β)) (k : α) (w : β) (h : assocGet? l k = some w)
    (hn : (l.map Prod.fst).Nodup) :
    ((assocRemove l k).map (fun kv => f kv.2)).sum
      = (l.map (fun kv => f kv.2)).sum - f w := by
  induction l with
  | nil => simp [assocGet?] at h
  | cons hd tl ih =>
    obtain ⟨a, b⟩ := hd
    simp only [List.map_cons, List.nodup_cons] at hn
    by_cases hh : a = k
    · subst hh
      rw [assocGet?, if_pos rfl] at h
      simp only [Option.some.injEq] at h
      subst h
      have htl : assocGet? tl a = none := (assocGet?_eq_none_iff tl a).2 hn.1
      rw [assocRemove, if_pos rfl, assocRemove_of_none tl a htl]
      simp
    · rw [assocGet?, if_neg hh] at h
      rw [assocRemove, if_neg hh]
      simp only [List.map_cons, List.sum_cons, ih h hn.2]
      ring

/-- The contribution of one record to the connection total: non-provisional
records contribute their connection count. -/
def connContribution (inf : PeerInfo) : Int :=
  if inf.temp then 0 else (inf.conns.length : Int)

/-- The total number of connection handles stored across all non-provisional
records. -/
def totalNonTempConns (reg : Registry) : Int :=
  (reg.map (fun kv => connContribution kv.2)).sum

/-- One notification delivered to the notifee. -/
inductive ConnEvent where
  | conn (c : Conn) (now : Int)
  | disc (c : Conn)

/-- Dispatch one notification. -/
def applyConnEvent (st : CMState) : ConnEvent → Option CMState
  | .conn c now => Connected st c now
  | .disc c => Disconnected st c

/-- Apply a finite sequence of notifications sequentially. -/
def applyConnEvents (st : CMState) : List ConnEvent → Option CMState
  | [] => some st
  | e :: es => (applyConnEvent st e).bind (fun st2 => applyConnEvents st2 es)

/-- The inductive invariant of connection tracking: unique registry keys, no
provisional records, per-record connection maps with unique keys, and the
counter agreeing with the stored handles. -/
def connWF (st : CMState) : Prop :=
  (st.segments.map Prod.fst).Nodup
  ∧ (∀ pi ∈ st.segments, pi.2.temp = false)
  ∧ (∀ pi ∈ st.segments, ((pi.2.conns.map Prod.fst).Nodup))
  ∧ st.connCount = totalNonTempConns st.segments

theorem connected_wf (st : CMState) (c : Conn) (now : Int) (st2 : CMState)
    (hwf : connWF st) (h : Connected st c now = some st2) : connWF st2 := by
  obtain ⟨hnd, htemp, hcn, hcount⟩ := hwf
  rw [Connected] at h
  cases hsg : segmentsGet c.peer with
  | none => rw [hsg] at h; exact absurd h (by simp)
  | some b =>
    simp only [hsg] at h
    cases hg : assocGet? st.segments c.peer with
    | none =>
      simp only [hg, Option.some.injEq] at h
      subst h
      have hk : c.peer ∉ st.segments.map Prod.fst :=
        (assocGet?_eq_none_iff _ _).1 hg
      refine ⟨?_, ?_, ?_, ?_⟩
      · simp [List.nodup_append, hnd, hk]
      · intro x hx
        rcases List.mem_append.1 hx with hx | hx
        · exact htemp x hx
        · simp at hx
          simp [hx]
      · intro x hx
        rcases List.mem_append.1 hx with hx | hx
        · exact hcn x hx
        · simp at hx
          simp [hx]
      · simp only [totalNonTempConns, List.map_append, List.sum_append]
        rw [hcount]
        simp [connContribution, totalNonTempConns]
    | some pinfo0 =>
      have hmem : (c.peer, pinfo0) ∈ st.segments := assocGet?_mem _ _ _ hg
      have ht0 : pinfo0.temp = false := htemp (c.peer, pinfo0) hmem
      simp only [hg, ht0, Bool.false_eq_true, if_false] at h
      by_cases hc : (assocGet? pinfo0.conns c).isSome
      · rw [if_pos hc] at h
        simp only [Option.some.injEq] at h
        subst h
        rw [assocSet_self _ _ _ hg]
        exact ⟨hnd, htemp, hcn, hcount⟩
      · rw [if_neg hc] at h
        simp only [Option.some.injEq] at h
        subst h
        have hcnone : assocGet? pinfo0.conns c = none := by
          cases hx : assocGet? pinfo0.conns c
          · rfl
          · rw [hx] at hc; simp at hc
        refine ⟨?_, ?_, ?_, ?_⟩
        · rw [assocSet_map_fst_of_get _ _ _ _ hg]
          exact hnd
        · intro x hx
          rcases mem_assocSet hx with hx2 | hx2
          · exact htemp x hx2
          · subst hx2
            simpa using ht0
        · intro x hx
          rcases mem_assocSet hx with hx2 | hx2
          · exact hcn x hx2
          · subst hx2
            exact assocSet_keys_nodup _ _ _ (hcn (c.peer, pinfo0) hmem)
        · simp only [totalNonTempConns]
          rw [map_sum_assocSet connContribution _ _ _ pinfo0 hg]
          simp only [connContribution, ht0]
          rw [assocSet_length_of_none _ _ _ hcnone]
          rw [hcount]
          simp only [totalNonTempConns, connContribution]
          push_cast
          ring

theorem disconnected_wf (st : CMState) (c : Conn) (st2 : CMState)
    (hwf : connWF st) (h : Disconnected st c = some st2) : connWF st2 := by
  obtain ⟨hnd, htemp, hcn, hcount⟩ := hwf
  rw [Disconnected] at h
  cases hsg : segmentsGet c.peer with
  | none => rw [hsg] at h; exact absurd h (by simp)
  | some b =>
    simp only [hsg] at h
    cases hg : assocGet? st.segments c.peer with
    | none =>
      simp only [hg, Option.some.injEq] at h
      subst h
      exact ⟨hnd, htemp, hcn, hcount⟩
    | some cinf =>
      simp only [hg] at h
      have hmem : (c.peer, cinf) ∈ st.segments := assocGet?_mem _ _ _ hg
      have ht0 : cinf.temp = false := htemp (c.peer, cinf) hmem
      by_cases hc : (assocGet? cinf.conns c).isSome
      · rw [if_pos hc] at h
        simp only [Option.some.injEq] at h
        subst h
        rcases Option.isSome_iff_exists.1 hc with ⟨t, hct⟩
        have hlen : (assocRemove cinf.conns c).length + 1 = cinf.conns.length :=
          assocRemove_length_of_mem _ _ (hcn (c.peer, cinf) hmem) hc
        by_cases hemp : assocRemove cinf.conns c = []
        · rw [if_pos hemp]
          refine ⟨?_, ?_, ?_, ?_⟩
          · exact hnd.sublist (assocRemove_map_fst_sublist _ _)
          · intro x hx
            exact htemp x (mem_assocRemove hx)
          · intro x hx
            exact hcn x (mem_assocRemove hx)
          · simp only [totalNonTempConns]
            rw [map_sum_assocRemove connContribution _ _ cinf hg hnd]
            rw [hcount]
            simp only [totalNonTempConns, connContribution, ht0]
            rw [hemp] at hlen
            simp at hlen
            simp [← hlen]
        · rw [if_neg hemp]
          refine ⟨?_, ?_, ?_, ?_⟩
          · rw [assocSet_map_fst_of_get _ _ _ _ hg]
            exact hnd
          · intro x hx
            rcases mem_assocSet hx with hx2 | hx2
            · exact htemp x hx2
            · subst hx2
              simpa using ht0
          · intro x hx
            rcases mem_assocSet hx with hx2 | hx2
            · exact hcn x hx2
            · subst hx2
              exact assocRemove_keys_nodup _ _ (hcn (c.peer, cinf) hmem)
          · simp only [totalNonTempConns]
            rw [map_sum_assocSet connContribution _ _ _ cinf hg]
            rw [hcount]
            simp only [totalNonTempConns, connContribution, ht0]
            push_cast
            omega
      · rw [if_neg hc] at h
        simp only [Option.some.injEq] at h
        subst h
        exact ⟨hnd, htemp, hcn, hcount⟩

theorem applyConnEvent_wf (st : CMState) (e : ConnEvent) (st2 : CMState)
    (hwf : connWF st) (h : applyConnEvent st e = some st2) : connWF st2 := by
  cases e with
  | conn c now => exact connected_wf st c now st2 hwf h
  | disc c => exact disconnected_wf st c st2 hwf h

/-- C5: after any finite sequence of Connected and Disconnected notifications
applied sequentially from an initial state with an empty registry and a zero
counter, the global connection counter equals the total number of connection
handles stored across all non-provisional records. -/
theorem counter_consistency (evs : List ConnEvent) (st0 st : CMState)
    (h0seg : st0.segments = []) (h0cnt : st0.connCount = 0)
    (h : applyConnEvents st0 evs = some st) :
    st.connCount = totalNonTempConns st.segments := by
  have main : ∀ (evs : List ConnEvent) (s1 s2 : CMState), connWF s1 →
      applyConnEvents s1 evs = some s2 → connWF s2 := by
    intro l
    induction l with
    | nil =>
      intro s1 s2 hwf hh
      simp only [applyConnEvents, Option.some.injEq] at hh
      subst hh
      exact hwf
    | cons e es ih =>
      intro s1 s2 hwf hh
      simp only [applyConnEvents] at hh
      cases hstep : applyConnEvent s1 e with
      | none => rw [hstep] at hh; exact absurd hh (by simp)
      | some s3 =>
        rw [hstep] at hh
        simp only [Option.some_bind] at hh
        exact ih s3 s2 (applyConnEvent_wf s1 e s3 hwf hstep) hh
  have h0 : connWF st0 := by
    refine ⟨?_, ?_, ?_, ?_⟩ <;> simp [h0seg, h0cnt, totalNonTempConns]
  exact (main evs st0 st h0 h).2.2.2

/-- The initial manager state of the C5 witness (fresh manager, empty
registry, zero counter). -/
def stInitW : CMState where
  highWater := 5
  lowWater := 2
  connCount := 0
  gracePeriod := 0
  segments := []
  protectedPeers := []
  minimumPeersForProtocol := []
  lastTrim := 0
  silencePeriod := 10

/-- The notification sequence of the C5 witness: three connects (two handles
to the same peer) and one disconnect. -/
def evsW : List ConnEvent :=
  [.conn (Conn.mk [1] 0) 1, .conn (Conn.mk [1] 1) 2,
   .conn (Conn.mk [2] 0) 3, .disc (Conn.mk [1] 0)]

/-- The manager state reached by the C5 witness sequence. -/
def stFinalW : CMState where
  highWater := 5
  lowWater := 2
  connCount := 2
  gracePeriod := 0
  segments :=
    [([1], { id := [1], tags := [], value := 0, temp := false,
             conns := [(Conn.mk [1] 1, 2)], firstSeen := 1 }),
     ([2], { id := [2], tags := [], value := 0, temp := false,
             conns := [(Conn.mk [2] 0, 3)], firstSeen := 3 })]
  protectedPeers := []
  minimumPeersForProtocol := []
  lastTrim := 0
  silencePeriod := 10

/-- Witness for the counter consistency theorem at a concrete notification
sequence. -/
theorem counter_consistency_witness :
    stFinalW.connCount = totalNonTempConns stFinalW.segments :=
  counter_consistency evsW stInitW stFinalW rfl rfl rfl

/-- C6: duplicate and stale notifications are inert.  A Connected
notification for a handle already tracked for its peer, a Disconnected
notification for an unknown peer, and a Disconnected notification for a
handle not tracked for its peer all leave the entire manager state (registry
and counter) unchanged.  The hypotheses record that the peer identifier is
well formed (non-empty, otherwise the Go code panics instead of returning)
and the data model invariant that provisional records hold no connections. -/
theorem dup_stale_notification_noop (st : CMState) (c : Conn) (now : Int)
    (hp : c.peer ≠ [])
    (htemp : ∀ pi ∈ st.segments, pi.2.temp = true → pi.2.conns = []) :
    (∀ pinfo, assocGet? st.segments c.peer = some pinfo →
        (assocGet? pinfo.conns c).isSome → Connected st c now = some st)
    ∧ (assocGet? st.segments c.peer = none → Disconnected st c = some st)
    ∧ (∀ pinfo, assocGet? st.segments c.peer = some pinfo →
        assocGet? pinfo.conns c = none → Disconnected st c = some st) := by
  have hsg : ∃ b, segmentsGet c.peer = some b := by
    rcases Option.isSome_iff_exists.1 ((List.getLast?_isSome).2 hp) with ⟨b, hb⟩
    exact ⟨b, hb⟩
  rcases hsg with ⟨b, hb⟩
  refine ⟨?_, ?_, ?_⟩
  · intro pinfo hg hc
    have hmem : (c.peer, pinfo) ∈ st.segments := assocGet?_mem _ _ _ hg
    have ht0 : pinfo.temp = false := by
      cases ht : pinfo.temp
      · rfl
      · have := htemp (c.peer, pinfo) hmem ht
        rw [this] at hc
        simp [assocGet?] at hc
    rw [Connected]
    simp only [hb, hg, ht0, Bool.false_eq_true, if_false, hc, if_pos]
    rw [assocSet_self _ _ _ hg]
  · intro hg
    rw [Disconnected]
    simp only [hb, hg]
  · intro pinfo hg hc
    rw [Disconnected]
    simp only [hb, hg, hc, Option.isSome_none, Bool.false_eq_true, if_false]

/-- A concrete state for the C6 witness: peer [1] tracked with one handle. -/
def stDupW : CMState where
  highWater := 5
  lowWater := 2
  connCount := 1
  gracePeriod := 0
  segments :=
    [([1], { id := [1], tags := [], value := 0, temp := false,
             conns := [(Conn.mk [1] 0, 1)], firstSeen := 1 })]
  protectedPeers := []
  minimumPeersForProtocol := []
  lastTrim := 0
  silencePeriod := 10

/-- Witness for the duplicate/stale notification theorem: a duplicate
connect, a disconnect for an unknown peer, and a disconnect for an untracked
handle, all at concrete states. -/
theorem dup_stale_notification_noop_witness :
    Connected stDupW (Conn.mk [1] 0) 7 = some stDupW
    ∧ Disconnected stDupW (Conn.mk [2] 0) = some stDupW
    ∧ Disconnected stDupW (Conn.mk [1] 9) = some stDupW :=
  ⟨(dup_stale_notification_noop stDupW (Conn.mk [1] 0) 7 (by decide)
      (by intro pi hpi; simp [stDupW] at hpi; simp [hpi])).1
      _ rfl (by decide),
   (dup_stale_notification_noop stDupW (Conn.mk [2] 0) 7 (by decide)
      (by intro pi hpi; simp [stDupW] at hpi; simp [hpi])).2.1 rfl,
   (dup_stale_notification_noop stDupW (Conn.mk [1] 9) 7 (by decide)
      (by intro pi hpi; simp [stDupW] at hpi; simp [hpi])).2.2
      _ rfl rfl⟩

/-! ### Trim engine lemmas -/

theorem nodup_keys_eq {α β : Type} {l : List (α × β)}
    (hn : (l.map Prod.fst).Nodup) {k : α} {v w : β}
    (h1 : (k, v) ∈ l) (h2 : (k, w) ∈ l) : v = w := by
  induction l with
  | nil => simp at h1
  | cons hd tl ih =>
    simp only [List.map_cons, List.nodup_cons] at hn
    rcases List.mem_cons.1 h1 with h1 | h1 <;>
      rcases List.mem_cons.1 h2 with h2 | h2
    · rw [← h2] at h1
      exact congrArg Prod.snd h1
    · exfalso
      apply hn.1
      rw [← h1]
      exact List.mem_map.2 ⟨(k, w), h2, rfl⟩
    · exfalso
      apply hn.1
      rw [← h2]
      exact List.mem_map.2 ⟨(k, v), h1, rfl⟩
    · exact ih hn.2 h1 h2

theorem scanPairs_mem (prot : List (PeerId × List String))
    (minima : List (ProtoId × Int)) (protosOf : PeerId → Option (List ProtoId)) :
    ∀ (reg : Registry) (counts : List (ProtoId × Nat)) (x : PeerId × PeerInfo),
      x ∈ (scanPairs prot minima protosOf reg counts).1 →
      x ∈ reg ∧ assocGet? prot x.1 = none := by
  intro reg
  induction reg with
  | nil =>
    intro counts x hx
    simp [scanPairs] at hx
  | cons hd tl ih =>
    intro counts x hx
    obtain ⟨p, inf⟩ := hd
    rw [scanPairs] at hx
    by_cases hpr : (assocGet? prot p).isSome
    · rw [if_pos hpr] at hx
      rcases ih counts x hx with ⟨h1, h2⟩
      exact ⟨List.mem_cons_of_mem _ h1, h2⟩
    · rw [if_neg hpr] at hx
      have hprn : assocGet? prot p = none := by
        cases hq : assocGet? prot p
        · rfl
        · rw [hq] at hpr; simp at hpr
      cases hpo : protosOf p with
      | none =>
        simp only [hpo] at hx
        simp only [List.mem_cons] at hx
        rcases hx with hx | hx
        · subst hx
          exact ⟨List.mem_cons.2 (Or.inl rfl), hprn⟩
        · rcases ih counts x hx with ⟨h1, h2⟩
          exact ⟨List.mem_cons_of_mem _ h1, h2⟩
      | some ps =>
        simp only [hpo] at hx
        by_cases hex : (quotaScan minima ps counts).2
        · rw [if_pos hex] at hx
          rcases ih _ x hx with ⟨h1, h2⟩
          exact ⟨List.mem_cons_of_mem _ h1, h2⟩
        · rw [if_neg hex] at hx
          simp only [List.mem_cons] at hx
          rcases hx with hx | hx
          · subst hx
            exact ⟨List.mem_cons.2 (Or.inl rfl), hprn⟩
          · rcases ih _ x hx with ⟨h1, h2⟩
            exact ⟨List.mem_cons_of_mem _ h1, h2⟩

theorem scanPairs_sublist (prot : List (PeerId × List String))
    (minima : List (ProtoId × Int)) (protosOf : PeerId → Option (List ProtoId)) :
    ∀ (reg : Registry) (counts : List (ProtoId × Nat)),
      ((scanPairs prot minima protosOf reg counts).1).Sublist reg := by
  intro reg
  induction reg with
  | nil =>
    intro counts
    simp [scanPairs]
  | cons hd tl ih =>
    intro counts
    obtain ⟨p, inf⟩ := hd
    rw [scanPairs]
    by_cases hpr : (assocGet? prot p).isSome
    · rw [if_pos hpr]
      exact (ih counts).trans (List.sublist_cons_self _ _)
    · rw [if_neg hpr]
      cases hpo : protosOf p with
      | none =>
        simp only [hpo]
        exact (ih counts).cons₂ (p, inf)
      | some ps =>
        simp only [hpo]
        by_cases hex : (quotaScan minima ps counts).2
        · rw [if_pos hex]
          exact (ih _).trans (List.sublist_cons_self _ _)
        · rw [if_neg hex]
          exact (ih _).cons₂ (p, inf)

theorem selectConns_mem (grace now : Int) :
    ∀ (l : List PeerInfo) (target : Int) (c : Conn),
      c ∈ (selectConns grace now l target).1 →
      ∃ inf ∈ l, c ∈ handles inf ∧ inf.firstSeen + grace ≤ now := by
  intro l
  induction l with
  | nil =>
    intro target c hc
    simp [selectConns] at hc
  | cons inf rest ih =>
    intro target c hc
    rw [selectConns] at hc
    by_cases h0 : target ≤ 0
    · rw [if_pos h0] at hc
      simp at hc
    · rw [if_neg h0] at hc
      by_cases hg : now < inf.firstSeen + grace
      · rw [if_pos hg] at hc
        rcases ih target c hc with ⟨inf2, h1, h2, h3⟩
        exact ⟨inf2, List.mem_cons_of_mem _ h1, h2, h3⟩
      · rw [if_neg hg] at hc
        by_cases ht : inf.conns = [] ∧ inf.temp
        · rw [if_pos ht] at hc
          rcases ih _ c hc with ⟨inf2, h1, h2, h3⟩
          exact ⟨inf2, List.mem_cons_of_mem _ h1, h2, h3⟩
        · rw [if_neg ht] at hc
          rcases List.mem_append.1 hc with hc | hc
          · exact ⟨inf, List.mem_cons.2 (Or.inl rfl), hc, by omega⟩
          · rcases ih _ c hc with ⟨inf2, h1, h2, h3⟩
            exact ⟨inf2, List.mem_cons_of_mem _ h1, h2, h3⟩

theorem getConnsToClose_origin (st : CMState)
    (protosOf : PeerId → Option (List ProtoId)) (now : Int) (c : Conn)
    (hc : c ∈ getConnsToClose st protosOf now) :
    ∃ q inf2, (q, inf2) ∈ st.segments
      ∧ assocGet? st.protectedPeers q = none
      ∧ c ∈ handles inf2 ∧ inf2.firstSeen + st.gracePeriod ≤ now := by
  rw [getConnsToClose, getConnsToCloseFull] at hc
  by_cases h1 : st.lowWater = 0 ∨ st.highWater = 0
  · rw [if_pos h1] at hc
    simp at hc
  · rw [if_neg h1] at hc
    by_cases h2 : st.connCount ≤ st.lowWater
    · rw [if_pos h2] at hc
      simp at hc
    · rw [if_neg h2] at hc
      simp only at hc
      rcases selectConns_mem _ _ _ _ c hc with ⟨inf2, hmem, hch, hgr⟩
      have hmem2 : inf2 ∈ scanPeers st.protectedPeers st.minimumPeersForProtocol
          protosOf st.segments [] :=
        (List.perm_insertionSort leR _).mem_iff.1 hmem
      rw [scanPeers] at hmem2
      rcases List.mem_map.1 hmem2 with ⟨x, hx, hxe⟩
      obtain ⟨q, inf3⟩ := x
      simp only at hxe
      subst hxe
      rcases scanPairs_mem _ _ _ _ _ _ hx with ⟨hreg, hunprot⟩
      exact ⟨q, _, hreg, hunprot, hch, hgr⟩

/-! ### Claim C8: protection immunity -/

/-- C8: a peer present in the protection registry when the trim pass scans
the shards never has any of its connections among the connections selected
for closure, regardless of its value.  The ownership hypothesis states the
tracking invariant that each stored handle names its record owner as remote
peer. -/
theorem protection_immunity (st : CMState)
    (protosOf : PeerId → Option (List ProtoId)) (now : Int)
    (p : PeerId) (inf : PeerInfo)
    (hprot : (assocGet? st.protectedPeers p).isSome)
    (hmem : (p, inf) ∈ st.segments)
    (hown : ∀ pi ∈ st.segments, ∀ ct ∈ pi.2.conns, ct.1.peer = pi.1) :
    ∀ c ∈ getConnsToClose st protosOf now, c ∉ handles inf := by
  intro c hc hch
  rcases getConnsToClose_origin st protosOf now c hc with
    ⟨q, inf2, hreg, hunprot, hch2, _⟩
  rcases List.mem_map.1 hch with ⟨ct, hct, hcte⟩
  rcases List.mem_map.1 hch2 with ⟨ct2, hct2, hcte2⟩
  have he1 : c.peer = p := by
    rw [← hcte]
    exact hown (p, inf) hmem ct hct
  have he2 : c.peer = q := by
    rw [← hcte2]
    exact hown (q, inf2) hreg ct2 hct2
  rw [he1] at he2
  rw [he2] at hprot
  rw [hunprot] at hprot
  simp at hprot

/-! ### Claim C7: grace immunity -/

/-- C7: a peer whose first-observed time plus the grace period lies after the
instant the trim pass starts never has any of its connections among the
connections selected for closure.  Unique registry keys and handle ownership
are the tracking invariants of the data model. -/
theorem grace_immunity (st : CMState)
    (protosOf : PeerId → Option (List ProtoId)) (now : Int)
    (p : PeerId) (inf : PeerInfo)
    (hg : now < inf.firstSeen + st.gracePeriod)
    (hmem : (p, inf) ∈ st.segments)
    (hnd : (st.segments.map Prod.fst).Nodup)
    (hown : ∀ pi ∈ st.segments, ∀ ct ∈ pi.2.conns, ct.1.peer = pi.1) :
    ∀ c ∈ getConnsToClose st protosOf now, c ∉ handles inf := by
  intro c hc hch
  rcases getConnsToClose_origin st protosOf now c hc with
    ⟨q, inf2, hreg, _, hch2, hgr⟩
  rcases List.mem_map.1 hch with ⟨ct, hct, hcte⟩
  rcases List.mem_map.1 hch2 with ⟨ct2, hct2, hcte2⟩
  have he1 : c.peer = p := by
    rw [← hcte]
    exact hown (p, inf) hmem ct hct
  have he2 : c.peer = q := by
    rw [← hcte2]
    exact hown (q, inf2) hreg ct2 hct2
  rw [he1] at he2
  rw [← he2] at hreg
  have : inf2 = inf := nodup_keys_eq hnd hreg hmem
  rw [this] at hgr
  omega

/-- The protected record of the C8 witness. -/
def infProtW : PeerInfo :=
  { id := [1], tags := [], value := 0, temp := false,
    conns := [(Conn.mk [1] 0, 0)], firstSeen := 0 }

/-- The C8 witness state: peer [1] protected with the lowest value, peers [2]
and [3] unprotected, counter above the low watermark. -/
def stProtW : CMState where
  highWater := 1
  lowWater := 1
  connCount := 3
  gracePeriod := 0
  segments :=
    [([1], infProtW),
     ([2], { id := [2], tags := [], value := 1, temp := false,
             conns := [(Conn.mk [2] 0, 0)], firstSeen := 0 }),
     ([3], { id := [3], tags := [], value := 2, temp := false,
             conns := [(Conn.mk [3] 0, 0)], firstSeen := 0 })]
  protectedPeers := [([1], ["keep"])]
  minimumPeersForProtocol := []
  lastTrim := 0
  silencePeriod := 10

/-- Witness for the protection immunity theorem at a concrete trimming
state: none of the selected connections belongs to the protected record. -/
theorem protection_immunity_witness :
    (getConnsToClose stProtW (fun _ => some []) 9).all
      (fun c => !((handles infProtW).contains c)) = true := by
  have h := protection_immunity stProtW (fun _ => some []) 9 [1] infProtW
    (by decide) (by decide) (by decide)
  refine List.all_eq_true.2 ?_
  intro c hc
  simp only [Bool.not_eq_true']
  cases hx : (handles infProtW).contains c
  · rfl
  · exact absurd (List.elem_iff.1 hx) (h c hc)

/-- The in-grace record of the C7 witness. -/
def infGraceW : PeerInfo :=
  { id := [1], tags := [], value := 0, temp := false,
    conns := [(Conn.mk [1] 0, 5)], firstSeen := 5 }

/-- The C7 witness state: peer [1] first seen at instant 5 with grace period
10 (still inside the grace window at instant 7), peers [2] and [3] long past
their grace window. -/
def stGraceW : CMState where
  highWater := 1
  lowWater := 1
  connCount := 3
  gracePeriod := 10
  segments :=
    [([1], infGraceW),
     ([2], { id := [2], tags := [], value := 1, temp := false,
             conns := [(Conn.mk [2] 0, 0)], firstSeen := -5 }),
     ([3], { id := [3], tags := [], value := 2, temp := false,
             conns := [(Conn.mk [3] 0, 0)], firstSeen := -5 })]
  protectedPeers := []
  minimumPeersForProtocol := []
  lastTrim := 0
  silencePeriod := 10

/-- Witness for the grace immunity theorem at a concrete trimming state:
none of the selected connections belongs to the in-grace record. -/
theorem grace_immunity_witness :
    (getConnsToClose stGraceW (fun _ => some []) 7).all
      (fun c => !((handles infGraceW).contains c)) = true := by
  have h := grace_immunity stGraceW (fun _ => some []) 7 [1] infGraceW
    (by decide) (by decide) (by decide) (by decide)
  refine List.all_eq_true.2 ?_
  intro c hc
  simp only [Bool.not_eq_true']
  cases hx : (handles infGraceW).contains c
  · rfl
  · exact absurd (List.elem_iff.1 hx) (h c hc)

/-! ### Claim C2: monotonic floor convergence -/

theorem quotaScan_no_minima : ∀ (ps : List ProtoId) (counts : List (ProtoId × Nat)),
    (quotaScan [] ps counts).2 = false := by
  intro ps
  induction ps with
  | nil => intro counts; rfl
  | cons pr rest ih =>
    intro counts
    rw [quotaScan]
    simp only [assocGet?]
    exact ih _

theorem scanPairs_no_constraints (protosOf : PeerId → Option (List ProtoId)) :
    ∀ (reg : Registry) (counts : List (ProtoId × Nat)),
      (scanPairs [] [] protosOf reg counts).1 = reg := by
  intro reg
  induction reg with
  | nil => intro counts; rfl
  | cons hd tl ih =>
    intro counts
    obtain ⟨p, inf⟩ := hd
    rw [scanPairs]
    rw [if_neg (by simp [assocGet?])]
    cases hpo : protosOf p with
    | none =>
      simp only [hpo]
      rw [ih _]
    | some ps =>
      simp only [hpo]
      rw [if_neg (by rw [quotaScan_no_minima]; simp)]
      simp only
      rw [ih _]

theorem leInfo_trans : ∀ (a b c : PeerInfo),
    leInfo a b = true → leInfo b c = true → leInfo a c = true := by
  intro a b c h1 h2
  unfold leInfo at *
  cases ha : a.temp <;> cases hb : b.temp <;> cases hc : c.temp <;>
    simp [ha, hb, hc] at * <;> omega

theorem leInfo_total : ∀ (a b : PeerInfo), (leInfo a b || leInfo b a) = true := by
  intro a b
  unfold leInfo
  cases ha : a.temp <;> cases hb : b.temp <;> simp [ha, hb] <;> omega

instance : IsTotal PeerInfo leR where
  total := by
    intro a b
    have := leInfo_total a b
    rcases Bool.or_eq_true_iff.1 this with h | h
    · exact Or.inl h
    · exact Or.inr h

instance : IsTrans PeerInfo leR where
  trans := fun a b c h1 h2 => leInfo_trans a b c h1 h2

theorem selectConns_take (grace now : Int) :
    ∀ (l : List PeerInfo) (t : Int), 0 ≤ t →
      (∀ inf ∈ l, inf.firstSeen + grace ≤ now ∧ inf.conns.length = 1) →
      (selectConns grace now l t).1 = (l.take t.toNat).flatMap handles := by
  intro l
  induction l with
  | nil =>
    intro t ht hl
    simp [selectConns]
  | cons inf rest ih =>
    intro t ht hl
    rw [selectConns]
    rcases hl inf (List.mem_cons.2 (Or.inl rfl)) with ⟨hg, hlen⟩
    by_cases h0 : t ≤ 0
    · have ht0 : t = 0 := le_antisymm h0 ht
      subst ht0
      simp
    · rw [if_neg h0]
      rw [if_neg (by omega : ¬ now < inf.firstSeen + grace)]
      have hne : ¬(inf.conns = [] ∧ inf.temp = true) := by
        rintro ⟨he, _⟩
        rw [he] at hlen
        simp at hlen
      rw [if_neg hne]
      have htt : t.toNat = (t - inf.conns.length).toNat + 1 := by
        rw [hlen]
        omega
      rw [htt, List.take_succ_cons, List.flatMap_cons]
      show handles inf ++ (selectConns grace now rest
          (t - (inf.conns.length : Int))).1
        = handles inf ++ (List.take (t - (inf.conns.length : Int)).toNat
            rest).flatMap handles
      rw [ih (t - (inf.conns.length : Int)) (by rw [hlen]; omega)
        (fun x hx => hl x (List.mem_cons_of_mem _ hx))]

theorem flatMap_handles_length :
    ∀ (l : List PeerInfo), (∀ inf ∈ l, inf.conns.length = 1) →
      (l.flatMap handles).length = l.length := by
  intro l
  induction l with
  | nil => intro h; rfl
  | cons inf rest ih =>
    intro h
    rw [List.flatMap_cons, List.length_append,
      ih (fun x hx => h x (List.mem_cons_of_mem _ hx))]
    have := h inf (List.mem_cons.2 (Or.inl rfl))
    simp only [handles, List.length_map, List.length_cons]
    omega

/-- C2: with low watermark L, high watermark H (0 < L, L at most H), grace 0,
no protections and no protocol minimums, a registry of N distinct
single-connection non-provisional peers with pairwise distinct values and
N above H, a single trim selects exactly N minus L connections, and every
peer that loses its connection has strictly smaller value than every peer
that keeps its connection (with all records non-provisional the
provisional-first preference is inactive). -/
theorem floor_convergence (st : CMState)
    (protosOf : PeerId → Option (List ProtoId)) (now : Int)
    (hL : 0 < st.lowWater) (hLH : st.lowWater ≤ st.highWater)
    (hN : st.highWater < (st.segments.length : Int))
    (hcnt : st.connCount = (st.segments.length : Int))
    (hprot : st.protectedPeers = [])
    (hquota : st.minimumPeersForProtocol = [])
    (hgrace : st.gracePeriod = 0)
    (hrec : ∀ pi ∈ st.segments, pi.2.temp = false ∧ pi.2.conns.length = 1
        ∧ pi.2.firstSeen ≤ now)
    (hnd : (st.segments.map Prod.fst).Nodup)
    (hown : ∀ pi ∈ st.segments, ∀ ct ∈ pi.2.conns, ct.1.peer = pi.1)
    (hval : (st.segments.map (fun pi => pi.2.value)).Nodup) :
    ((getConnsToClose st protosOf now).length : Int)
        = (st.segments.length : Int) - st.lowWater
    ∧ (∀ pi ∈ st.segments, ∀ qj ∈ st.segments,
        (∃ c ∈ handles pi.2, c ∈ getConnsToClose st protosOf now) →
        (∀ c ∈ handles qj.2, c ∉ getConnsToClose st protosOf now) →
        pi.2.value < qj.2.value) := by
  have hg1 : ¬(st.lowWater = 0 ∨ st.highWater = 0) := by omega
  have hg2 : ¬(st.connCount ≤ st.lowWater) := by omega
  have hcand : scanPeers st.protectedPeers st.minimumPeersForProtocol
      protosOf st.segments [] = st.segments.map Prod.snd := by
    rw [hprot, hquota]
    simp only [scanPeers]
    rw [scanPairs_no_constraints]
  have hsel0 : getConnsToClose st protosOf now
      = (selectConns st.gracePeriod now
          (List.insertionSort leR (st.segments.map Prod.snd))
          (st.connCount - st.lowWater)).1 := by
    rw [getConnsToClose, getConnsToCloseFull, if_neg hg1, if_neg hg2]
    simp only [hcand]
  have hperm : (List.insertionSort leR (st.segments.map Prod.snd)).Perm
      (st.segments.map Prod.snd) := List.perm_insertionSort leR _
  have hsortrec : ∀ inf ∈ List.insertionSort leR (st.segments.map Prod.snd),
      inf.temp = false ∧ inf.conns.length = 1 ∧ inf.firstSeen ≤ now := by
    intro inf hinf
    rcases List.mem_map.1 (hperm.mem_iff.1 hinf) with ⟨pr, hpr, hpre⟩
    rw [← hpre]
    exact hrec pr hpr
  have ht0 : (0 : Int) ≤ st.connCount - st.lowWater := by omega
  have hsel : getConnsToClose st protosOf now
      = ((List.insertionSort leR (st.segments.map Prod.snd)).take
          (st.connCount - st.lowWater).toNat).flatMap handles := by
    rw [hsel0]
    refine selectConns_take _ _ _ _ ht0 ?_
    intro inf hinf
    rcases hsortrec inf hinf with ⟨_, h2, h3⟩
    exact ⟨by omega, h2⟩
  have hlen1 : ∀ inf ∈ (List.insertionSort leR (st.segments.map Prod.snd)).take
      (st.connCount - st.lowWater).toNat, inf.conns.length = 1 := by
    intro inf hinf
    exact (hsortrec inf (List.take_subset _ _ hinf)).2.1
  have hslen : (List.insertionSort leR (st.segments.map Prod.snd)).length
      = st.segments.length := by
    rw [hperm.length_eq, List.length_map]
  have htle : (st.connCount - st.lowWater).toNat ≤ st.segments.length := by
    omega
  constructor
  · rw [hsel, flatMap_handles_length _ hlen1, List.length_take, hslen]
    have : min (st.connCount - st.lowWater).toNat st.segments.length
        = (st.connCount - st.lowWater).toNat := by omega
    rw [this]
    rw [Int.toNat_of_nonneg ht0]
    omega
  · intro pi hpi qj hqj hex hall
    rcases hex with ⟨c, hch, hcs⟩
    rw [hsel] at hcs
    rcases List.mem_flatMap.1 hcs with ⟨inf2, hinf2, hch2⟩
    rcases List.mem_map.1 (hperm.mem_iff.1 (List.take_subset _ _ hinf2)) with
      ⟨pr2, hpr2, hpr2e⟩
    rcases List.mem_map.1 hch with ⟨ct, hct, hcte⟩
    rcases List.mem_map.1 hch2 with ⟨ct2, hct2, hcte2⟩
    have he1 : c.peer = pi.1 := by
      rw [← hcte]
      exact hown pi hpi ct hct
    have he2 : c.peer = pr2.1 := by
      rw [← hcte2]
      apply hown pr2 hpr2 ct2
      rw [hpr2e]
      exact hct2
    have hkey : pr2.1 = pi.1 := by rw [← he2, he1]
    have hsnd : pr2.2 = pi.2 := by
      have hpr2b : (pi.1, pr2.2) ∈ st.segments := by
        have hx : (pr2.1, pr2.2) = (pi.1, pr2.2) := by rw [hkey]
        rw [← hx]
        simpa using hpr2
      have hpib : (pi.1, pi.2) ∈ st.segments := by simpa using hpi
      exact nodup_keys_eq hnd hpr2b hpib
    have hpitake : pi.2 ∈ (List.insertionSort leR (st.segments.map Prod.snd)).take
        (st.connCount - st.lowWater).toNat := by
      rw [← hsnd, hpr2e]
      exact hinf2
    have hqjsorted : qj.2 ∈ List.insertionSort leR (st.segments.map Prod.snd) := by
      rw [hperm.mem_iff]
      exact List.mem_map.2 ⟨qj, hqj, rfl⟩
    have hqjdrop : qj.2 ∈ (List.insertionSort leR (st.segments.map Prod.snd)).drop
        (st.connCount - st.lowWater).toNat := by
      have hsplit := List.take_append_drop
        (st.connCount - st.lowWater).toNat
        (List.insertionSort leR (st.segments.map Prod.snd))
      rcases List.mem_append.1 (by rw [hsplit]; exact hqjsorted) with h | h
      · exfalso
        have hq1 : qj.2.conns.length = 1 := (hrec qj hqj).2.1
        rcases List.exists_mem_of_length_pos (by omega :
            0 < qj.2.conns.length) with ⟨ct3, hct3⟩
        apply hall ct3.1 (List.mem_map.2 ⟨ct3, hct3, rfl⟩)
        rw [hsel]
        exact List.mem_flatMap.2 ⟨qj.2, h, List.mem_map.2 ⟨ct3, hct3, rfl⟩⟩
      · exact h
    have hpairwise : List.Pairwise leR
        (List.insertionSort leR (st.segments.map Prod.snd)) :=
      List.sorted_insertionSort leR (st.segments.map Prod.snd)
    have hle : leInfo pi.2 qj.2 = true := by
      have hsplit := List.take_append_drop
        (st.connCount - st.lowWater).toNat
        (List.insertionSort leR (st.segments.map Prod.snd))
      rw [← hsplit] at hpairwise
      exact (List.pairwise_append.1 hpairwise).2.2 _ hpitake _ hqjdrop
    have htpi : pi.2.temp = false := (hrec pi hpi).1
    have htqj : qj.2.temp = false := (hrec qj hqj).1
    have hlev : pi.2.value ≤ qj.2.value := by
      unfold leInfo at hle
      rw [htpi, htqj] at hle
      simpa using hle
    have hne2 : pi.2 ≠ qj.2 := by
      intro heq
      apply hall c
      · rw [← heq]
        exact hch
      · rw [hsel]
        exact List.mem_flatMap.2 ⟨pi.2, hpitake, hch⟩
    have hvne : pi.2.value ≠ qj.2.value := by
      have hpw : List.Pairwise (fun x y : PeerId × PeerInfo =>
          x.2.value ≠ y.2.value) st.segments := List.pairwise_map.1 hval
      have hforall := hpw.forall (fun x y h => h.symm)
      intro hv
      by_cases hpq : pi = qj
      · exact hne2 (by rw [hpq])
      · exact hforall hpi hqj hpq hv
    omega

/-- The C2 witness state: four single-connection peers with distinct values
3, 1, 2, 4, low watermark 2, high watermark 3. -/
def stFloorW : CMState where
  highWater := 3
  lowWater := 2
  connCount := 4
  gracePeriod := 0
  segments :=
    [([0], { id := [0], tags := [("t", 3)], value := 3, temp := false,
             conns := [(Conn.mk [0] 0, 0)], firstSeen := 0 }),
     ([1], { id := [1], tags := [("t", 1)], value := 1, temp := false,
             conns := [(Conn.mk [1] 0, 0)], firstSeen := 0 }),
     ([2], { id := [2], tags := [("t", 2)], value := 2, temp := false,
             conns := [(Conn.mk [2] 0, 0)], firstSeen := 0 }),
     ([3], { id := [3], tags := [("t", 4)], value := 4, temp := false,
             conns := [(Conn.mk [3] 0, 0)], firstSeen := 0 })]
  protectedPeers := []
  minimumPeersForProtocol := []
  lastTrim := 0
  silencePeriod := 10

/-- Witness for the floor convergence theorem at a concrete state: exactly
N - L = 2 connections are selected and every pruned peer has smaller value
than every kept peer. -/
theorem floor_convergence_witness :
    ((getConnsToClose stFloorW (fun _ => some []) 5).length : Int)
        = (stFloorW.segments.length : Int) - stFloorW.lowWater
    ∧ (∀ pi ∈ stFloorW.segments, ∀ qj ∈ stFloorW.segments,
        (∃ c ∈ handles pi.2, c ∈ getConnsToClose stFloorW (fun _ => some []) 5) →
        (∀ c ∈ handles qj.2, c ∉ getConnsToClose stFloorW (fun _ => some []) 5) →
        pi.2.value < qj.2.value) :=
  floor_convergence stFloorW (fun _ => some []) 5 (by decide) (by decide)
    (by decide) (by decide) (by decide) (by decide) (by decide) (by decide)
    (by decide) (by decide) (by decide)

/-! ### Claim C1: protocol quota floor -/

/-- Whether a peer supports a protocol according to the capability lookup (a
failed lookup supports nothing). -/
def supportsProto (protosOf : PeerId → Option (List ProtoId)) (P : ProtoId)
    (p : PeerId) : Bool :=
  decide (P ∈ (protosOf p).getD [])

theorem countOf_bump_self (counts : List (ProtoId × Nat)) (pr : ProtoId) :
    countOf (bumpCount counts pr) pr = countOf counts pr + 1 := by
  unfold bumpCount countOf
  cases h : assocGet? counts pr with
  | none => rw [assocGet?_set_self]; rfl
  | some n => rw [assocGet?_set_self]; rfl

theorem countOf_bump_ne (counts : List (ProtoId × Nat)) (pr pr2 : ProtoId)
    (h : pr2 ≠ pr) : countOf (bumpCount counts pr) pr2 = countOf counts pr2 := by
  unfold bumpCount countOf
  cases hx : assocGet? counts pr with
  | none => rw [assocGet?_set_ne _ _ _ _ h]
  | some n => rw [assocGet?_set_ne _ _ _ _ h]

theorem quotaScan_countOf_mono (minima : List (ProtoId × Int)) (P : ProtoId) :
    ∀ (ps : List ProtoId) (counts : List (ProtoId × Nat)),
      countOf counts P ≤ countOf (quotaScan minima ps counts).1 P := by
  intro ps
  induction ps with
  | nil => intro counts; exact le_refl _
  | cons pr rest ih =>
    intro counts
    rw [quotaScan]
    have hb : countOf counts P ≤ countOf (bumpCount counts pr) P := by
      by_cases h : P = pr
      · subst h; rw [countOf_bump_self]; omega
      · rw [countOf_bump_ne _ _ _ h]
    cases hm : assocGet? minima pr with
    | none => exact le_trans hb (ih _)
    | some mp =>
      dsimp only
      by_cases h0 : mp ≤ 0
      · rw [if_pos h0]
        exact le_trans hb (ih _)
      · rw [if_neg h0]
        by_cases hle : (countOf (bumpCount counts pr) pr : Int) ≤ mp
        · rw [if_pos hle]
          exact hb
        · rw [if_neg hle]
          exact le_trans hb (ih _)

theorem quotaScan_countOf_notMem (minima : List (ProtoId × Int)) (P : ProtoId) :
    ∀ (ps : List ProtoId) (counts : List (ProtoId × Nat)), P ∉ ps →
      countOf (quotaScan minima ps counts).1 P = countOf counts P := by
  intro ps
  induction ps with
  | nil => intro counts _; rfl
  | cons pr rest ih =>
    intro counts hP
    have hne : P ≠ pr := fun h => hP (h ▸ List.mem_cons.2 (Or.inl rfl))
    have hrest : P ∉ rest := fun h => hP (List.mem_cons_of_mem _ h)
    rw [quotaScan]
    cases hm : assocGet? minima pr with
    | none => rw [ih _ hrest, countOf_bump_ne _ _ _ hne]
    | some mp =>
      dsimp only
      by_cases h0 : mp ≤ 0
      · rw [if_pos h0, ih _ hrest, countOf_bump_ne _ _ _ hne]
      · rw [if_neg h0]
        by_cases hle : (countOf (bumpCount counts pr) pr : Int) ≤ mp
        · rw [if_pos hle]
          exact countOf_bump_ne _ _ _ hne
        · rw [if_neg hle, ih _ hrest, countOf_bump_ne _ _ _ hne]

theorem quotaScan_countOf_le (minima : List (ProtoId × Int)) (P : ProtoId) :
    ∀ (ps : List ProtoId) (counts : List (ProtoId × Nat)), ps.Nodup →
      countOf (quotaScan minima ps counts).1 P
        ≤ countOf counts P + (if P ∈ ps then 1 else 0) := by
  intro ps
  induction ps with
  | nil => intro counts _; simp [quotaScan]
  | cons pr rest ih =>
    intro counts hnd
    rw [List.nodup_cons] at hnd
    rw [quotaScan]
    by_cases hP : P = pr
    · subst hP
      have hrest : P ∉ rest := hnd.1
      have hone : (if P ∈ P :: rest then 1 else 0) = 1 := by simp
      rw [hone]
      cases hm : assocGet? minima P with
      | none =>
        rw [quotaScan_countOf_notMem _ _ _ _ hrest, countOf_bump_self]
      | some mp =>
        dsimp only
        by_cases h0 : mp ≤ 0
        · rw [if_pos h0, quotaScan_countOf_notMem _ _ _ _ hrest,
            countOf_bump_self]
        · rw [if_neg h0]
          by_cases hle : (countOf (bumpCount counts P) P : Int) ≤ mp
          · rw [if_pos hle]
            rw [countOf_bump_self]
          · rw [if_neg hle, quotaScan_countOf_notMem _ _ _ _ hrest,
              countOf_bump_self]
    · have hb : countOf (bumpCount counts pr) P = countOf counts P :=
        countOf_bump_ne _ _ _ hP
      have hmm : (if P ∈ pr :: rest then 1 else 0)
          = (if P ∈ rest then 1 else 0) := by
        by_cases h : P ∈ rest <;> simp [h, hP]
      rw [hmm]
      cases hm : assocGet? minima pr with
      | none => rw [← hb]; exact ih _ hnd.2
      | some mp =>
        dsimp only
        by_cases h0 : mp ≤ 0
        · rw [if_pos h0, ← hb]
          exact ih _ hnd.2
        · rw [if_neg h0]
          by_cases hle : (countOf (bumpCount counts pr) pr : Int) ≤ mp
          · rw [if_pos hle, hb]
            omega
          · rw [if_neg hle, ← hb]
            exact ih _ hnd.2

theorem quotaScan_not_exempt (minima : List (ProtoId × Int)) (P : ProtoId)
    (m : Int) (hm : assocGet? minima P = some m) (hm0 : 0 < m) :
    ∀ (ps : List ProtoId) (counts : List (ProtoId × Nat)), ps.Nodup → P ∈ ps →
      (quotaScan minima ps counts).2 = false →
      countOf (quotaScan minima ps counts).1 P = countOf counts P + 1
      ∧ (m : Int) < (countOf counts P : Int) + 1 := by
  intro ps
  induction ps with
  | nil => intro counts _ hP; simp at hP
  | cons pr rest ih =>
    intro counts hnd hP hex
    rw [List.nodup_cons] at hnd
    rw [quotaScan] at hex ⊢
    by_cases hPe : P = pr
    · subst hPe
      have hrest : P ∉ rest := hnd.1
      rw [hm] at hex ⊢
      dsimp only at hex ⊢
      rw [if_neg (by omega : ¬ m ≤ 0)] at hex ⊢
      by_cases hle : (countOf (bumpCount counts P) P : Int) ≤ m
      · rw [if_pos hle] at hex
        simp at hex
      · rw [if_neg hle] at hex ⊢
        rw [countOf_bump_self] at hle
        refine ⟨?_, by push_cast at hle ⊢; omega⟩
        rw [quotaScan_countOf_notMem _ _ _ _ hrest, countOf_bump_self]
    · have hPrest : P ∈ rest := by
        rcases List.mem_cons.1 hP with h | h
        · exact absurd h hPe
        · exact h
      have hb : countOf (bumpCount counts pr) P = countOf counts P :=
        countOf_bump_ne _ _ _ hPe
      cases hmp : assocGet? minima pr with
      | none =>
        rw [hmp] at hex
        dsimp only at hex
        rcases ih _ hnd.2 hPrest hex with ⟨h1, h2⟩
        rw [hb] at h1 h2
        exact ⟨h1, h2⟩
      | some mp =>
        rw [hmp] at hex
        dsimp only at hex ⊢
        by_cases h0 : mp ≤ 0
        · rw [if_pos h0] at hex ⊢
          rcases ih _ hnd.2 hPrest hex with ⟨h1, h2⟩
          rw [hb] at h1 h2
          exact ⟨h1, h2⟩
        · rw [if_neg h0] at hex ⊢
          by_cases hle : (countOf (bumpCount counts pr) pr : Int) ≤ mp
          · rw [if_pos hle] at hex
            simp at hex
          · rw [if_neg hle] at hex ⊢
            rcases ih _ hnd.2 hPrest hex with ⟨h1, h2⟩
            rw [hb] at h1 h2
            exact ⟨h1, h2⟩

theorem scanPairs_count_le (prot : List (PeerId × List String))
    (minima : List (ProtoId × Int)) (protosOf : PeerId → Option (List ProtoId))
    (P : ProtoId) :
    ∀ (reg : Registry) (counts : List (ProtoId × Nat)),
      (∀ pi ∈ reg, ∃ ps, protosOf pi.1 = some ps ∧ ps.Nodup) →
      countOf (scanPairs prot minima protosOf reg counts).2 P
        ≤ countOf counts P
          + reg.countP (fun pi => supportsProto protosOf P pi.1) := by
  intro reg
  induction reg with
  | nil => intro counts _; simp [scanPairs]
  | cons hd tl ih =>
    intro counts hlook
    obtain ⟨p, inf⟩ := hd
    rcases hlook (p, inf) (List.mem_cons.2 (Or.inl rfl)) with ⟨ps, hps, hnps⟩
    have hlook2 : ∀ pi ∈ tl, ∃ ps, protosOf pi.1 = some ps ∧ ps.Nodup :=
      fun pi hpi => hlook pi (List.mem_cons_of_mem _ hpi)
    have hcountP : (List.countP (fun pi => supportsProto protosOf P pi.1)
        ((p, inf) :: tl))
        = List.countP (fun pi => supportsProto protosOf P pi.1) tl
          + (if P ∈ ps then 1 else 0) := by
      rw [List.countP_cons]
      have : supportsProto protosOf P (p, inf).1 = decide (P ∈ ps) := by
        simp [supportsProto, hps]
      rw [this]
      by_cases hsup : P ∈ ps <;> simp [hsup]
    rw [scanPairs, hcountP]
    by_cases hprot2 : (assocGet? prot p).isSome
    · rw [if_pos hprot2]
      have := ih counts hlook2
      omega
    · rw [if_neg hprot2]
      simp only [hps]
      have hq := quotaScan_countOf_le minima P ps counts hnps
      by_cases hex : (quotaScan minima ps counts).2
      · rw [if_pos hex]
        have := ih (quotaScan minima ps counts).1 hlook2
        omega
      · rw [if_neg hex]
        dsimp only
        have := ih (quotaScan minima ps counts).1 hlook2
        omega

theorem scanPairs_quota_bound (prot : List (PeerId × List String))
    (minima : List (ProtoId × Int)) (protosOf : PeerId → Option (List ProtoId))
    (P : ProtoId) (m : Int) (hm : assocGet? minima P = some m) (hm0 : 0 < m) :
    ∀ (reg : Registry) (counts : List (ProtoId × Nat)),
      (∀ pi ∈ reg, ∃ ps, protosOf pi.1 = some ps ∧ ps.Nodup) →
      (((scanPairs prot minima protosOf reg counts).1.countP
          (fun pi => supportsProto protosOf P pi.1)) : Int)
        + max ((countOf counts P : Int) - m) 0
        ≤ max ((countOf (scanPairs prot minima protosOf reg counts).2 P : Int)
            - m) 0 := by
  intro reg
  induction reg with
  | nil => intro counts _; simp [scanPairs]
  | cons hd tl ih =>
    intro counts hlook
    obtain ⟨p, inf⟩ := hd
    rcases hlook (p, inf) (List.mem_cons.2 (Or.inl rfl)) with ⟨ps, hps, hnps⟩
    have hlook2 : ∀ pi ∈ tl, ∃ ps, protosOf pi.1 = some ps ∧ ps.Nodup :=
      fun pi hpi => hlook pi (List.mem_cons_of_mem _ hpi)
    rw [scanPairs]
    by_cases hprot2 : (assocGet? prot p).isSome
    · rw [if_pos hprot2]
      exact ih counts hlook2
    · rw [if_neg hprot2]
      simp only [hps]
      by_cases hex : (quotaScan minima ps counts).2
      · rw [if_pos hex]
        have hmono := quotaScan_countOf_mono minima P ps counts
        have := ih (quotaScan minima ps counts).1 hlook2
        omega
      · rw [if_neg hex]
        dsimp only
        rw [List.countP_cons]
        have hsupeq : supportsProto protosOf P (p, inf).1 = decide (P ∈ ps) := by
          simp [supportsProto, hps]
        rw [hsupeq]
        have := ih (quotaScan minima ps counts).1 hlook2
        by_cases hsup : P ∈ ps
        · have hexf : (quotaScan minima ps counts).2 = false := by
            cases hx : (quotaScan minima ps counts).2
            · rfl
            · exact absurd hx hex
          rcases quotaScan_not_exempt minima P m hm hm0 ps counts hnps hsup hexf
            with ⟨h1, h2⟩
          rw [h1] at this
          rw [if_pos (by simp [hsup])]
          push_cast at this ⊢
          omega
        · have hc2 : countOf (quotaScan minima ps counts).1 P
              = countOf counts P :=
            quotaScan_countOf_notMem minima P ps counts hsup
          rw [hc2] at this
          rw [if_neg (by simp [hsup])]
          push_cast at this ⊢
          omega

theorem countP_split {α : Type} (l : List α) (p q : α → Bool) :
    l.countP p = l.countP (fun x => p x && q x)
      + l.countP (fun x => p x && !q x) := by
  induction l with
  | nil => rfl
  | cons a l ih =>
    simp only [List.countP_cons]
    cases hp : p a <;> cases hq : q a <;> simp [hp, hq] <;> omega

theorem countP_le_sublist {α : Type} (pq p : α → Bool)
    (himp : ∀ x, pq x = true → p x = true) :
    ∀ {out l : List α}, out.Sublist l → l.Nodup →
      (∀ x ∈ l, pq x = true → x ∈ out) →
      l.countP pq ≤ out.countP p := by
  intro out l hsub
  induction hsub with
  | slnil =>
    intro _ _
    simp
  | cons a hs ih =>
    intro hnd hin
    rw [List.nodup_cons] at hnd
    rw [List.countP_cons]
    have ha : pq a = false := by
      cases hpa : pq a
      · rfl
      · exact absurd (hs.subset (hin a (List.mem_cons.2 (Or.inl rfl)) hpa))
          hnd.1
    rw [ha]
    simp only [Bool.false_eq_true, if_false, Nat.add_zero]
    refine ih hnd.2 (fun x hx hpx => ?_)
    exact hin x (List.mem_cons_of_mem _ hx) hpx
  | cons₂ a hs ih =>
    intro hnd hin
    rw [List.nodup_cons] at hnd
    rw [List.countP_cons, List.countP_cons]
    have hrest : _ ≤ _ := ih hnd.2 (fun x hx hpx => by
      rcases List.mem_cons.1 (hin x (List.mem_cons_of_mem _ hx) hpx) with h | h
      · exact absurd (h ▸ hx) hnd.1
      · exact h)
    by_cases hpa : pq a = true
    · rw [if_pos hpa, if_pos (himp a hpa)]
      omega
    · rw [if_neg hpa]
      by_cases hp2 : p a = true <;> simp [hp2] <;> omega

theorem getConnsToClose_origin_pairs (st : CMState)
    (protosOf : PeerId → Option (List ProtoId)) (now : Int) (c : Conn)
    (hc : c ∈ getConnsToClose st protosOf now) :
    ∃ q inf2, (q, inf2) ∈ (scanPairs st.protectedPeers
        st.minimumPeersForProtocol protosOf st.segments []).1
      ∧ c ∈ handles inf2 := by
  rw [getConnsToClose, getConnsToCloseFull] at hc
  by_cases h1 : st.lowWater = 0 ∨ st.highWater = 0
  · rw [if_pos h1] at hc
    simp at hc
  · rw [if_neg h1] at hc
    by_cases h2 : st.connCount ≤ st.lowWater
    · rw [if_pos h2] at hc
      simp at hc
    · rw [if_neg h2] at hc
      simp only at hc
      rcases selectConns_mem _ _ _ _ c hc with ⟨inf2, hmem, hch, _⟩
      have hmem2 : inf2 ∈ scanPeers st.protectedPeers
          st.minimumPeersForProtocol protosOf st.segments [] :=
        (List.perm_insertionSort leR _).mem_iff.1 hmem
      rw [scanPeers] at hmem2
      rcases List.mem_map.1 hmem2 with ⟨x, hx, hxe⟩
      obtain ⟨q, inf3⟩ := x
      simp only at hxe
      subst hxe
      exact ⟨q, _, hx, hch⟩

/-- C1 (amended): in a state with no protected peers, no peers inside the
grace window, successful (duplicate-free) protocol lookups for every tracked
peer, and every record non-provisional with at least one live connection, a
single trim pass leaves at least min(m, n) connected peers supporting any
protocol with configured minimum m greater than 0, where n is the number of
connected peers supporting that protocol before the trim. -/
theorem quota_floor (st : CMState) (protosOf : PeerId → Option (List ProtoId))
    (now : Int) (P : ProtoId) (m : Int)
    (hm : assocGet? st.minimumPeersForProtocol P = some m) (hm0 : 0 < m)
    (hprot : st.protectedPeers = [])
    (hgrace : ∀ pi ∈ st.segments, pi.2.firstSeen + st.gracePeriod ≤ now)
    (hlook : ∀ pi ∈ st.segments, ∃ ps, protosOf pi.1 = some ps ∧ ps.Nodup)
    (htemp : ∀ pi ∈ st.segments, pi.2.temp = false)
    (hconn : ∀ pi ∈ st.segments, pi.2.conns ≠ [])
    (hnd : (st.segments.map Prod.fst).Nodup)
    (hown : ∀ pi ∈ st.segments, ∀ ct ∈ pi.2.conns, ct.1.peer = pi.1) :
    min m.toNat (st.segments.countP (fun pi => supportsProto protosOf P pi.1))
      ≤ st.segments.countP (fun pi => supportsProto protosOf P pi.1
          && pi.2.conns.any (fun ct =>
              !((getConnsToClose st protosOf now).contains ct.1))) := by
  have hD : ∀ x ∈ st.segments,
      (∃ ct, ct ∈ x.2.conns ∧ ct.1 ∈ getConnsToClose st protosOf now) →
      x ∈ (scanPairs st.protectedPeers st.minimumPeersForProtocol protosOf
        st.segments []).1 := by
    intro x hx hex
    rcases hex with ⟨ct, hct, hcs⟩
    rcases getConnsToClose_origin_pairs st protosOf now ct.1 hcs with
      ⟨q, inf2, hout, hch2⟩
    have hreg2 : (q, inf2) ∈ st.segments :=
      (scanPairs_sublist _ _ _ _ _).subset hout
    rcases List.mem_map.1 hch2 with ⟨ct2, hct2, hcte2⟩
    have he1 : ct.1.peer = x.1 := hown x hx ct hct
    have he2 : ct.1.peer = q := by
      rw [← hcte2]
      exact hown (q, inf2) hreg2 ct2 hct2
    have hkey : q = x.1 := by rw [← he2, he1]
    have hreg2b : (x.1, inf2) ∈ st.segments := by
      rw [← hkey]
      exact hreg2
    have hxb : (x.1, x.2) ∈ st.segments := by
      obtain ⟨a, b⟩ := x
      exact hx
    have hsnd : inf2 = x.2 := nodup_keys_eq hnd hreg2b hxb
    have : (q, inf2) = x := by
      obtain ⟨a, b⟩ := x
      simp only at hkey hsnd
      rw [hkey, hsnd]
    rw [← this]
    exact hout
  have hbad : st.segments.countP (fun pi => supportsProto protosOf P pi.1
        && !(pi.2.conns.any (fun ct =>
            !((getConnsToClose st protosOf now).contains ct.1))))
      ≤ (scanPairs st.protectedPeers st.minimumPeersForProtocol protosOf
          st.segments []).1.countP
          (fun pi => supportsProto protosOf P pi.1) := by
    refine countP_le_sublist _ _ (fun x hx => ?_)
      (scanPairs_sublist _ _ _ _ _) (List.Nodup.of_map _ hnd) ?_
    · rcases Bool.and_eq_true_iff.1 hx with ⟨h1, _⟩
      exact h1
    · intro x hx hpx
      rcases Bool.and_eq_true_iff.1 hpx with ⟨hsupp, hnsurv⟩
      apply hD x hx
      have hcx : x.2.conns ≠ [] := hconn x hx
      rcases List.exists_mem_of_length_pos
        (List.length_pos_of_ne_nil hcx) with ⟨ct, hct⟩
      refine ⟨ct, hct, ?_⟩
      by_contra hni
      have : x.2.conns.any (fun ct =>
          !((getConnsToClose st protosOf now).contains ct.1)) = true := by
        refine List.any_eq_true.2 ⟨ct, hct, ?_⟩
        simp only [Bool.not_eq_true']
        cases hcon : (getConnsToClose st protosOf now).contains ct.1
        · rfl
        · exact absurd (List.elem_iff.1 hcon) hni
      rw [this] at hnsurv
      simp at hnsurv
  have hS : (((scanPairs st.protectedPeers st.minimumPeersForProtocol protosOf
        st.segments []).1.countP
        (fun pi => supportsProto protosOf P pi.1)) : Int)
      ≤ max ((st.segments.countP
          (fun pi => supportsProto protosOf P pi.1) : Int) - m) 0 := by
    have hb := scanPairs_quota_bound st.protectedPeers
      st.minimumPeersForProtocol protosOf P m hm hm0 st.segments [] hlook
    have hc := scanPairs_count_le st.protectedPeers
      st.minimumPeersForProtocol protosOf P st.segments [] hlook
    have hz : countOf ([] : List (ProtoId × Nat)) P = 0 := rfl
    rw [hz] at hb hc
    omega
  have hsplit := countP_split st.segments
    (fun pi => supportsProto protosOf P pi.1)
    (fun pi => pi.2.conns.any (fun ct =>
        !((getConnsToClose st protosOf now).contains ct.1)))
  omega

/-- The C1 counterexample state: a provisional zero-connection record for
peer [0] supporting protocol P sits first in scan order and absorbs the
single quota-exemption slot; the really connected supporter [1] (lowest
value) and the non-supporter [2] are both connected. -/
def stQuotaCex : CMState where
  highWater := 1
  lowWater := 1
  connCount := 2
  gracePeriod := 0
  segments :=
    [([0], { id := [0], tags := [("t", 0)], value := 0, temp := true,
             conns := [], firstSeen := 0 }),
     ([1], { id := [1], tags := [], value := 0, temp := false,
             conns := [(Conn.mk [1] 0, 0)], firstSeen := 0 }),
     ([2], { id := [2], tags := [("t", 1)], value := 1, temp := false,
             conns := [(Conn.mk [2] 0, 0)], firstSeen := 0 })]
  protectedPeers := []
  minimumPeersForProtocol := [("P", 1)]
  lastTrim := 0
  silencePeriod := 10

/-- The protocol capability lookup of the C1 counterexample: peers [0] and
[1] support protocol P, peer [2] supports nothing, every lookup succeeds. -/
def protosOfQuotaCex : PeerId → Option (List ProtoId) :=
  fun p => if p = [0] then some ["P"] else if p = [1] then some ["P"]
    else some []

/-- C1 counterexample: at stQuotaCex every hypothesis of the claim holds
(every protocol lookup succeeds with a duplicate-free list, no peer is
protected, no peer is within its grace period, and protocol P has configured
minimum 1), exactly one currently-connected peer supports P before the trim,
yet after closing the selected connections no connected peer supporting P
remains: the trim reduced the count below the minimum because the
provisional zero-connection record absorbed the quota exemption. -/
theorem quota_floor_cex :
    stQuotaCex.protectedPeers = []
    ∧ (∀ pi ∈ stQuotaCex.segments, (protosOfQuotaCex pi.1).isSome
        ∧ ((protosOfQuotaCex pi.1).getD []).Nodup)
    ∧ (∀ pi ∈ stQuotaCex.segments,
        pi.2.firstSeen + stQuotaCex.gracePeriod ≤ 1)
    ∧ assocGet? stQuotaCex.minimumPeersForProtocol "P" = some 1
    ∧ stQuotaCex.segments.countP (fun pi =>
        supportsProto protosOfQuotaCex "P" pi.1 && !pi.2.conns.isEmpty) = 1
    ∧ stQuotaCex.segments.countP (fun pi =>
        supportsProto protosOfQuotaCex "P" pi.1
          && pi.2.conns.any (fun ct =>
              !((getConnsToClose stQuotaCex protosOfQuotaCex 1).contains
                  ct.1))) = 0 := by
  decide

/-- The C1 witness state: two connected supporters of protocol P with
minimum 1; the trim may close only the higher-valued one. -/
def stQuotaW : CMState where
  highWater := 1
  lowWater := 1
  connCount := 2
  gracePeriod := 0
  segments :=
    [([1], { id := [1], tags := [], value := 0, temp := false,
             conns := [(Conn.mk [1] 0, 0)], firstSeen := 0 }),
     ([2], { id := [2], tags := [("t", 1)], value := 1, temp := false,
             conns := [(Conn.mk [2] 0, 0)], firstSeen := 0 })]
  protectedPeers := []
  minimumPeersForProtocol := [("P", 1)]
  lastTrim := 0
  silencePeriod := 10

/-- Witness for the amended quota floor theorem at a concrete state. -/
theorem quota_floor_witness :
    min (1 : Int).toNat (stQuotaW.segments.countP (fun pi =>
        supportsProto (fun _ => some ["P"]) "P" pi.1))
      ≤ stQuotaW.segments.countP (fun pi =>
          supportsProto (fun _ => some ["P"]) "P" pi.1
            && pi.2.conns.any (fun ct =>
                !((getConnsToClose stQuotaW (fun _ => some ["P"]) 1).contains
                    ct.1))) :=
  quota_floor stQuotaW (fun _ => some ["P"]) 1 "P" 1 rfl (by decide) rfl
    (by decide)
    (by
      intro pi hpi
      simp only [stQuotaW, List.mem_cons, List.not_mem_nil, or_false] at hpi
      rcases hpi with rfl | rfl
      · exact ⟨["P"], rfl, by decide⟩
      · exact ⟨["P"], rfl, by decide⟩)
    (by decide) (by decide) (by decide) (by decide)

end PhoreConnMgr
